import Mathlib

/-!
# Personal finance ledger: a verification development

Shallow embedding of `src/main.cpp` (the `Transaction` record, the
`FinanceManager` ledger and its text serialisation) together with theorems
about it.

Modelling conventions.

* `enum class TransactionType` and `enum class Category` have underlying type
  `int`, and `loadFromFile` builds them with `static_cast` from an arbitrary
  `int`.  Both are therefore embedded as their integer ordinal (`Int`), with
  the enumerators as named constants.
* `double` amounts are taken as exact rational numbers (`ℚ`).  Where the
  rounding of `double` addition matters (the values of the category maps), the
  grouping loop is stated once more with the addition as a parameter, and
  `doubleAdd` is the exact sum rounded to the nearest `double`.
* `std::string` is a list of characters, `std::time_t` an integer.
* `std::map<Category, double>` is the list of its entries in iteration order
  (ascending key); `m[k] += v` is `StdMap.addAt`.
* Text written to `std::cout` / `std::cerr` is not part of the state and is
  left out, except for the report of `generateCategoryReport`, whose printed
  values are returned as a `CategoryReport`.
* A file is the list of its characters.  The calls `saveToFile` and
  `loadFromFile` make into the stream library (`operator<<`, `operator>>`,
  `getline`, `ignore`) are modelled on a stream state with `eofbit` and
  `failbit`.  The text form of `double` is a parameter (`AmountFormat`);
  `defaultFormat` models the one of the default stream flags.
* Locals that `loadFromFile` declares without initialiser have arbitrary
  values, given by an `Uninit`.
-/

namespace Finance

/-! ## Data model -/

/-- Ordinal of an `enum class TransactionType` value. -/
abbrev TransactionType := Int

/-- Enumerator `TransactionType::INCOME`. -/
abbrev TransactionType.INCOME : TransactionType := 0
/-- Enumerator `TransactionType::EXPENSE`. -/
abbrev TransactionType.EXPENSE : TransactionType := 1

/-- Ordinal of an `enum class Category` value. -/
abbrev Category := Int

/-- Enumerator `Category::FOOD`. -/
abbrev Category.FOOD : Category := 0
/-- Enumerator `Category::TRANSPORT`. -/
abbrev Category.TRANSPORT : Category := 1
/-- Enumerator `Category::HOUSING`. -/
abbrev Category.HOUSING : Category := 2
/-- Enumerator `Category::ENTERTAINMENT`. -/
abbrev Category.ENTERTAINMENT : Category := 3
/-- Enumerator `Category::UTILITIES`. -/
abbrev Category.UTILITIES : Category := 4
/-- Enumerator `Category::SALARY`. -/
abbrev Category.SALARY : Category := 5
/-- Enumerator `Category::GIFT`. -/
abbrev Category.GIFT : Category := 6
/-- Enumerator `Category::OTHER`. -/
abbrev Category.OTHER : Category := 7

/-- The `switch` of `categoryToString`, with its `default:` branch. -/
def categoryToString (category : Category) : String :=
  if category = Category.FOOD then "Еда"
  else if category = Category.TRANSPORT then "Транспорт"
  else if category = Category.HOUSING then "Жильё"
  else if category = Category.ENTERTAINMENT then "Развлечения"
  else if category = Category.UTILITIES then "Коммунальные услуги"
  else if category = Category.SALARY then "Зарплата"
  else if category = Category.GIFT then "Подарок"
  else if category = Category.OTHER then "Другое"
  else "Неизвестно"

/-- The record `class Transaction`; the field is called `type` in the source. -/
structure Transaction where
  type : TransactionType
  amount : ℚ
  description : List Char
  category : Category
  date : Int
deriving DecidableEq

/-- The state of `class FinanceManager`. -/
structure FinanceManager where
  transactions : List Transaction
  username : List Char
deriving DecidableEq

/-- Constructor `FinanceManager(name)`: no transactions yet. -/
def FinanceManager.new (name : List Char) : FinanceManager :=
  { transactions := [], username := name }

/-- The method `FinanceManager::addTransaction`: one `emplace_back`. -/
def FinanceManager.addTransaction (m : FinanceManager) (type : TransactionType) (amount : ℚ)
    (description : List Char) (category : Category) (date : Int) : FinanceManager :=
  { m with transactions := m.transactions ++ [Transaction.mk type amount description category date] }

/-- One iteration of the loop of `calculateBalance`. -/
def balanceStep (balance : ℚ) (transaction : Transaction) : ℚ :=
  if transaction.type = TransactionType.INCOME then balance + transaction.amount
  else balance - transaction.amount

/-- The method `FinanceManager::calculateBalance`. -/
def FinanceManager.calculateBalance (m : FinanceManager) : ℚ :=
  m.transactions.foldl balanceStep 0

/-! ## Category report -/

/-- Entries of a `std::map<Category, double>` in iteration order. -/
abbrev StdMap := List (Category × ℚ)

/-- The statement `m[k] += v`: `operator[]` inserts a zero entry at the key's
place in the order when the key is absent, then the value is added. -/
def StdMap.addAt : StdMap → Category → ℚ → StdMap
  | [], k, v => [(k, 0 + v)]
  | (k', v') :: rest, k, v =>
    if k < k' then (k, 0 + v) :: (k', v') :: rest
    else if k = k' then (k', v' + v) :: rest
    else (k', v') :: StdMap.addAt rest k v

/-- What `generateCategoryReport` prints when there are transactions: the
lines of both maps in iteration order and the three totals. -/
structure CategoryReport where
  incomeByCategory : StdMap
  totalIncome : ℚ
  expenseByCategory : StdMap
  totalExpense : ℚ
  balance : ℚ
deriving DecidableEq

/-- One iteration of the grouping loop, on the pair of maps. -/
def groupStep (maps : StdMap × StdMap) (transaction : Transaction) : StdMap × StdMap :=
  if transaction.type = TransactionType.INCOME then
    (StdMap.addAt maps.1 transaction.category transaction.amount, maps.2)
  else
    (maps.1, StdMap.addAt maps.2 transaction.category transaction.amount)

/-- The grouping loop of `generateCategoryReport`. -/
def groupByCategory (transactions : List Transaction) : StdMap × StdMap :=
  transactions.foldl groupStep ([], [])

/-- The loops `total += amount` over a map. -/
def StdMap.total (m : StdMap) : ℚ :=
  m.foldl (fun total entry => total + entry.2) 0

/-- The method `FinanceManager::generateCategoryReport`: `none` is the early
return taken when there are no transactions. -/
def FinanceManager.generateCategoryReport (m : FinanceManager) : Option CategoryReport :=
  if m.transactions.isEmpty then none
  else
    let maps := groupByCategory m.transactions
    let totalIncome := StdMap.total maps.1
    let totalExpense := StdMap.total maps.2
    some { incomeByCategory := maps.1, totalIncome := totalIncome,
           expenseByCategory := maps.2, totalExpense := totalExpense,
           balance := totalIncome - totalExpense }

/-- Categories of the income lines a report call prints, in print order. -/
def incomeLines (r : Option CategoryReport) : List Category :=
  match r with
  | none => []
  | some r => r.incomeByCategory.map Prod.fst

/-- Categories of the expense lines a report call prints, in print order. -/
def expenseLines (r : Option CategoryReport) : List Category :=
  match r with
  | none => []
  | some r => r.expenseByCategory.map Prod.fst

/-! ## Text streams

The stream operations of the C++ library that `saveToFile` and `loadFromFile`
call, on a stream given by its unread characters and its `eofbit` and
`failbit` flags. -/

/-- An input file stream: the unread characters and two state flags. -/
structure IStream where
  buf : List Char
  eofbit : Bool
  failbit : Bool
deriving DecidableEq

/-- The test `good()`: neither flag is set. -/
def IStream.good (s : IStream) : Bool := !s.eofbit && !s.failbit

/-- A stream just opened on a file with the given content. -/
def IStream.ofContent (content : List Char) : IStream :=
  { buf := content, eofbit := false, failbit := false }

/-- White space of the classic locale. -/
def isSpace (c : Char) : Bool :=
  c == ' ' || c == '\t' || c == '\n' || c == '\x0b' || c == '\x0c' || c == '\r'

/-- The sentry of a formatted extraction: on a good stream it skips leading
white space and succeeds when a character is left; reaching the end sets
`eofbit` and `failbit`; on a stream that is not good it sets `failbit`. -/
def IStream.sentry (s : IStream) : Bool × IStream :=
  if s.good then
    match s.buf.dropWhile isSpace with
    | [] => (false, { buf := [], eofbit := true, failbit := true })
    | c :: cs => (true, { buf := c :: cs, eofbit := false, failbit := false })
  else (false, { s with failbit := true })

/-- The call `ignore()`: drops one character; at the end of the file it sets
`eofbit`; on a stream that is not good it only sets `failbit`. -/
def IStream.ignore (s : IStream) : IStream :=
  if s.good then
    match s.buf with
    | [] => { s with eofbit := true }
    | _ :: cs => { s with buf := cs }
  else { s with failbit := true }

/-- The call `std::getline(file, str)`: on a good stream the string is erased
and receives the characters up to the next newline, which is consumed; the end
of the file sets `eofbit`, and `failbit` too when nothing at all was read.  On
a stream that is not good the string keeps its old value. -/
def IStream.getline (s : IStream) (old : List Char) : List Char × IStream :=
  if s.good then
    match s.buf with
    | [] => ([], { buf := [], eofbit := true, failbit := true })
    | c :: cs =>
      match (c :: cs).dropWhile (fun x => x != '\n') with
      | [] => ((c :: cs).takeWhile (fun x => x != '\n'),
               { buf := [], eofbit := true, failbit := false })
      | _ :: rest => ((c :: cs).takeWhile (fun x => x != '\n'),
               { buf := rest, eofbit := false, failbit := false })
  else (old, { s with failbit := true })

/-- Decimal digits of a number, most significant first, in front of `acc`. -/
def putNatAux : Nat → Nat → List Char → List Char
  | 0, _, acc => acc
  | fuel + 1, n, acc =>
    if n < 10 then Char.ofNat (48 + n) :: acc
    else putNatAux fuel (n / 10) (Char.ofNat (48 + n % 10) :: acc)

/-- Output of an unsigned integer (`file << transactions.size()`). -/
def putNat (n : Nat) : List Char := putNatAux (n + 1) n []

/-- Output of a signed integer (`file << static_cast<int>(type)`, `file << date`). -/
def putInt (z : Int) : List Char :=
  if z < 0 then '-' :: putNat (-z).toNat else putNat z.toNat

/-- Value of a run of decimal digits. -/
def digitsVal (ds : List Char) : Nat :=
  ds.foldl (fun v c => 10 * v + (c.toNat - 48)) 0

/-- An optional sign in front of a number: whether it is a minus, and the rest. -/
def scanSign : List Char → Bool × List Char
  | [] => (false, [])
  | c :: cs => if c = '-' then (true, cs) else if c = '+' then (false, cs) else (false, c :: cs)

/-- Integer extraction for a signed type of `w` bits: the value stored, whether
`failbit` is raised, and the unread characters.  Without a digit the value is
0; out of range it is the nearest bound; both raise `failbit`. -/
def getSigned (w : Nat) (cs : List Char) : Int × Bool × List Char :=
  let sign := scanSign cs
  let ds := sign.2.takeWhile Char.isDigit
  let rest := sign.2.dropWhile Char.isDigit
  if ds.isEmpty then (0, true, rest)
  else if sign.1 then
    (if 2 ^ (w - 1) < digitsVal ds then (-(2 ^ (w - 1) : Int), true, rest)
     else (-(digitsVal ds : Int), false, rest))
  else
    (if 2 ^ (w - 1) - 1 < digitsVal ds then ((2 ^ (w - 1) : Int) - 1, true, rest)
     else ((digitsVal ds : Int), false, rest))

/-- Integer extraction for an unsigned type of `w` bits; a minus sign negates
modulo `2 ^ w`. -/
def getUnsigned (w : Nat) (cs : List Char) : Nat × Bool × List Char :=
  let sign := scanSign cs
  let ds := sign.2.takeWhile Char.isDigit
  let rest := sign.2.dropWhile Char.isDigit
  if ds.isEmpty then (0, true, rest)
  else if 2 ^ w - 1 < digitsVal ds then (2 ^ w - 1, true, rest)
  else if sign.1 then ((2 ^ w - digitsVal ds) % 2 ^ w, false, rest)
  else (digitsVal ds, false, rest)

/-- The statement `file >> x` for `int` (`w = 32`) and `std::time_t` (`w = 64`);
`old` is the value of `x` before, kept when the sentry fails. -/
def IStream.extractInt (w : Nat) (s : IStream) (old : Int) : Int × IStream :=
  if s.sentry.1 then
    let r := getSigned w s.sentry.2.buf
    (r.1, { buf := r.2.2, eofbit := r.2.2.isEmpty, failbit := r.2.1 })
  else (old, s.sentry.2)

/-- The statement `file >> count` for `size_t` (64 bits). -/
def IStream.extractSize (s : IStream) (old : Nat) : Nat × IStream :=
  if s.sentry.1 then
    let r := getUnsigned 64 s.sentry.2.buf
    (r.1, { buf := r.2.2, eofbit := r.2.2.isEmpty, failbit := r.2.1 })
  else (old, s.sentry.2)

/-- The text form of `double` values, which the source leaves to the stream
library: `put` is `file << amount`, `get` is the numeric parse of
`file >> amount` (the value, or `none` when the parse fails, and the unread
characters). -/
structure AmountFormat where
  put : ℚ → List Char
  get : List Char → Option ℚ × List Char

/-- The statement `file >> amount`: a failed parse stores 0 and raises
`failbit`. -/
def IStream.extractDouble (F : AmountFormat) (s : IStream) (old : ℚ) : ℚ × IStream :=
  if s.sentry.1 then
    let r := F.get s.sentry.2.buf
    (r.1.getD 0, { buf := r.2, eofbit := r.2.isEmpty, failbit := r.1.isNone })
  else (old, s.sentry.2)

/-! ## The default text form of amounts

A model of what the stream library does for `double` under default flags, on
exact values: output with six significant digits in the shorter of fixed and
scientific notation (`%g`), and the extraction of a decimal floating literal. -/

/-- A digit run without its trailing zeros. -/
def stripZeros (ds : List Char) : List Char :=
  (ds.reverse.dropWhile (fun c => c == '0')).reverse

/-- The quotient `a / b` rounded to the nearest integer, ties to even. -/
def roundHalfEven (a b : Nat) : Nat :=
  if 2 * (a % b) < b then a / b
  else if b < 2 * (a % b) then a / b + 1
  else if a / b % 2 = 0 then a / b
  else a / b + 1

/-- The decimal exponent of `n / d` (both positive): the `e` with
`10 ^ e ≤ n / d < 10 ^ (e + 1)`. -/
def decExponent (n d : Nat) : Int :=
  let e : Int := ((putNat n).length : Int) - ((putNat d).length : Int)
  if 0 ≤ e then (if d * 10 ^ e.toNat ≤ n then e else e - 1)
  else (if d ≤ n * 10 ^ (-e).toNat then e else e - 1)

/-- The value `n / d` scaled to an integer of six digits for exponent `e`. -/
def sixDigits (n d : Nat) (e : Int) : Nat :=
  if e ≤ 5 then roundHalfEven (n * 10 ^ (5 - e).toNat) d
  else roundHalfEven n (d * 10 ^ (e - 5).toNat)

/-- The exponent suffix of scientific notation: sign and at least two digits. -/
def putExponent (e : Int) : List Char :=
  'e' :: (if e < 0 then '-' else '+') ::
    (List.replicate (2 - (putNat e.natAbs).length) '0' ++ putNat e.natAbs)

/-- Output of the positive value `n / d`. -/
def putMagnitude (n d : Nat) : List Char :=
  let e1 := decExponent n d
  let m1 := sixDigits n d e1
  let e := if m1 = 1000000 then e1 + 1 else e1
  let ds := putNat (if m1 = 1000000 then 100000 else m1)
  if e < -4 ∨ 6 ≤ e then
    ds.take 1 ++ (if (stripZeros (ds.drop 1)).isEmpty then [] else '.' :: stripZeros (ds.drop 1))
      ++ putExponent e
  else if e < 0 then
    '0' :: '.' :: (List.replicate ((-e).toNat - 1) '0' ++ stripZeros ds)
  else
    ds.take (e.toNat + 1) ++
      (if (stripZeros (ds.drop (e.toNat + 1))).isEmpty then []
       else '.' :: stripZeros (ds.drop (e.toNat + 1)))

/-- Output of an amount with the default flags (`file << amount`). -/
def putDouble (x : ℚ) : List Char :=
  if x = 0 then ['0']
  else if x < 0 then '-' :: putMagnitude x.num.natAbs x.den
  else putMagnitude x.num.natAbs x.den

/-- The characters a floating extraction accepts, and the unread rest.  The
flags tell whether a decimal point, an exponent letter and a digit have been
seen, and whether a sign may come next (at the start and after the exponent
letter). -/
def scanFloat : Bool → Bool → Bool → Bool → List Char → List Char × List Char
  | _, _, _, _, [] => ([], [])
  | dec, sci, mant, signOk, c :: cs =>
    if signOk && (c == '+' || c == '-') then
      (c :: (scanFloat dec sci mant false cs).1, (scanFloat dec sci mant false cs).2)
    else if c.isDigit then
      (c :: (scanFloat dec sci true false cs).1, (scanFloat dec sci true false cs).2)
    else if c == '.' && !dec && !sci then
      (c :: (scanFloat true sci mant false cs).1, (scanFloat true sci mant false cs).2)
    else if (c == 'e' || c == 'E') && !sci && mant then
      ('e' :: (scanFloat dec true mant true cs).1, (scanFloat dec true mant true cs).2)
    else ([], c :: cs)

/-- The value of an accepted token, or `none` when it is not a complete
literal (no digit in the mantissa, or an exponent letter without digits). -/
def floatValue (tok : List Char) : Option ℚ :=
  let body := (scanSign tok).2
  let mant := body.takeWhile (fun c => c != 'e')
  let ip := mant.takeWhile (fun c => c != '.')
  let fp := (mant.dropWhile (fun c => c != '.')).drop 1
  let ex := scanSign ((body.dropWhile (fun c => c != 'e')).drop 1)
  if ip.isEmpty && fp.isEmpty then none
  else if body.contains 'e' && ex.2.isEmpty then none
  else
    let m : ℚ := (digitsVal (ip ++ fp) : ℚ) / 10 ^ fp.length
    let v : ℚ := if ex.1 then m / 10 ^ digitsVal ex.2 else m * 10 ^ digitsVal ex.2
    some (if (scanSign tok).1 then -v else v)

/-- The numeric parse of `file >> amount`. -/
def getDouble (cs : List Char) : Option ℚ × List Char :=
  (floatValue (scanFloat false false false true cs).1, (scanFloat false false false true cs).2)

/-- The text form of amounts under the default stream flags. -/
def defaultFormat : AmountFormat := { put := putDouble, get := getDouble }

/-! ## Saving and loading -/

/-- The method `Transaction::saveToFile`: the line written for one transaction. -/
def Transaction.saveToFile (F : AmountFormat) (t : Transaction) : List Char :=
  putInt t.type ++ [' '] ++ F.put t.amount ++ [' '] ++ putInt t.category ++ [' '] ++
    putInt t.date ++ [' '] ++ t.description ++ ['\n']

/-- What `FinanceManager::saveToFile` writes to an opened file. -/
def FinanceManager.fileText (F : AmountFormat) (m : FinanceManager) : List Char :=
  m.transactions.foldl (fun file t => file ++ t.saveToFile F)
    (m.username ++ ['\n'] ++ putNat m.transactions.length ++ ['\n'])

/-- The method `FinanceManager::saveToFile`; `opened` tells whether the file
could be opened for writing.  The result is the return value and the content
of the file when it was written. -/
def FinanceManager.saveToFile (F : AmountFormat) (m : FinanceManager) (opened : Bool) :
    Bool × Option (List Char) :=
  if opened then (true, some (m.fileText F)) else (false, none)

/-- The values held by the locals `loadFromFile` declares without initialiser
(`count`, and `type`, `amount`, `category`, `date` of each iteration): what an
extraction whose sentry fails leaves in them. -/
structure Uninit where
  count : Nat
  type : Nat → Int
  amount : Nat → ℚ
  category : Nat → Int
  date : Nat → Int

/-- The reading loop of `loadFromFile`, from iteration `i`, with `n`
iterations left. -/
def loadLoop (F : AmountFormat) (u : Uninit) :
    Nat → Nat → IStream → List Transaction → List Transaction
  | 0, _, _, transactions => transactions
  | n + 1, i, file, transactions =>
    let type := file.extractInt 32 (u.type i)
    let amount := type.2.extractDouble F (u.amount i)
    let category := amount.2.extractInt 32 (u.category i)
    let date := category.2.extractInt 64 (u.date i)
    let description := date.2.ignore.getline []
    loadLoop F u n (i + 1) description.2
      (transactions ++ [Transaction.mk type.1 amount.1 description.1 category.1 date.1])

/-- The method `FinanceManager::loadFromFile`; `file` is the content of the
named file, or `none` when it cannot be opened.  The result is the return
value and the ledger after the call. -/
def FinanceManager.loadFromFile (F : AmountFormat) (u : Uninit) (m : FinanceManager)
    (file : Option (List Char)) : Bool × FinanceManager :=
  match file with
  | none => (false, m)
  | some content =>
    let username := (IStream.ofContent content).getline m.username
    let count := username.2.extractSize u.count
    (true, { transactions := loadLoop F u count.1 0 count.2.ignore [],
             username := username.1 })

/-! ## Grouping in `double` arithmetic

The grouping loop of `generateCategoryReport` once more, with the addition of
amounts as a parameter, and the addition of `double` values as the exact sum
rounded to the nearest `double`. -/

/-- The number of halvings that bring `n` below 2, with `fuel` steps at most. -/
def binLogAux : Nat → Nat → Nat
  | 0, _ => 0
  | fuel + 1, n => if n < 2 then 0 else binLogAux fuel (n / 2) + 1

/-- The binary exponent of `n / d` (both positive): the `e` with
`2 ^ e ≤ n / d < 2 ^ (e + 1)`. -/
def binExponent (n d : Nat) : Int :=
  let e : Int := (binLogAux n n : Int) - (binLogAux d d : Int)
  if 0 ≤ e then (if d * 2 ^ e.toNat ≤ n then e else e - 1)
  else (if d ≤ n * 2 ^ (-e).toNat then e else e - 1)

/-- The `double` nearest to an exact value, ties to even: 53 significant bits,
exponent not below -1022 (subnormal values).  Values beyond the largest finite
`double` are outside the model. -/
def roundDouble (x : ℚ) : ℚ :=
  if x = 0 then 0
  else
    let e := if binExponent x.num.natAbs x.den < -1022 then -1022
      else binExponent x.num.natAbs x.den
    let v : ℚ :=
      if e ≤ 52 then
        (roundHalfEven (x.num.natAbs * 2 ^ (52 - e).toNat) x.den : ℚ) / 2 ^ (52 - e).toNat
      else
        (roundHalfEven x.num.natAbs (x.den * 2 ^ (e - 52).toNat) : ℚ) * 2 ^ (e - 52).toNat
    if x < 0 then -v else v

/-- The addition of two `double` values: the exact sum, rounded. -/
def doubleAdd (a b : ℚ) : ℚ := roundDouble (a + b)

/-- The statement `m[k] += v` with the addition `add` of amounts: as
`StdMap.addAt`, the zero entry of `operator[]` included. -/
def StdMap.addAtWith (add : ℚ → ℚ → ℚ) : StdMap → Category → ℚ → StdMap
  | [], k, v => [(k, add 0 v)]
  | (k', v') :: rest, k, v =>
    if k < k' then (k, add 0 v) :: (k', v') :: rest
    else if k = k' then (k', add v' v) :: rest
    else (k', v') :: StdMap.addAtWith add rest k v

/-- One iteration of the grouping loop with the addition `add`. -/
def groupStepWith (add : ℚ → ℚ → ℚ) (maps : StdMap × StdMap) (transaction : Transaction) :
    StdMap × StdMap :=
  if transaction.type = TransactionType.INCOME then
    (StdMap.addAtWith add maps.1 transaction.category transaction.amount, maps.2)
  else
    (maps.1, StdMap.addAtWith add maps.2 transaction.category transaction.amount)

/-- The grouping loop of `generateCategoryReport` with the addition `add`. -/
def groupByCategoryWith (add : ℚ → ℚ → ℚ) (transactions : List Transaction) :
    StdMap × StdMap :=
  transactions.foldl (groupStepWith add) ([], [])

/-- The maps `incomeByCategory` and `expenseByCategory` that
`generateCategoryReport` has built when its grouping loop ends, with the
addition `add`; `none` is the early return on an empty ledger. -/
def FinanceManager.reportMaps (add : ℚ → ℚ → ℚ) (m : FinanceManager) :
    Option (StdMap × StdMap) :=
  if m.transactions.isEmpty then none else some (groupByCategoryWith add m.transactions)

/-- The value a map holds under a key, if the key is present. -/
def StdMap.find : StdMap → Category → Option ℚ
  | [], _ => none
  | (k, v) :: rest, c => if k = c then some v else StdMap.find rest c

/-- The entry of one key while amounts are added to it one after another:
absent until the first amount, which is added to the zero of `operator[]`. -/
def accumulate (add : ℚ → ℚ → ℚ) (entry : Option ℚ) (amounts : List ℚ) : Option ℚ :=
  amounts.foldl (fun e a => some (add (e.getD 0) a)) entry

/-- Three Salary incomes on which `double` addition loses an amount:
1e16, 1 and -1e16, each of them a `double`. -/
def absorbingTransactions : List Transaction :=
  [ { type := TransactionType.INCOME, amount := 10000000000000000, description := [],
      category := Category.SALARY, date := 0 },
    { type := TransactionType.INCOME, amount := 1, description := [],
      category := Category.SALARY, date := 0 },
    { type := TransactionType.INCOME, amount := -10000000000000000, description := [],
      category := Category.SALARY, date := 0 } ]

/-! ## Auxiliary definitions for the statements -/

/-- The ranges that the C++ field types `int`, `int` and `std::time_t` impose
on the type ordinal, the category ordinal and the timestamp. -/
def Transaction.InRange (t : Transaction) : Prop :=
  (-(2 ^ 31 : Int) ≤ t.type ∧ t.type < 2 ^ 31) ∧
  (-(2 ^ 31 : Int) ≤ t.category ∧ t.category < 2 ^ 31) ∧
  (-(2 ^ 63 : Int) ≤ t.date ∧ t.date < 2 ^ 63)

/-- The range conditions are decidable. -/
instance (t : Transaction) : Decidable t.InRange := by
  unfold Transaction.InRange
  infer_instance

/-- The fraction of a floating literal: nothing, or a point and digits. -/
def fractionPart : Option (List Char) → List Char
  | none => []
  | some f => '.' :: f

/-- The exponent of a floating literal: nothing, or the letter, a sign and digits. -/
def exponentPart : Option (Bool × List Char) → List Char
  | none => []
  | some e => 'e' :: (if e.1 then '-' else '+') :: e.2

/-- A floating literal assembled from its parts: sign, integer digits,
optional fraction, optional exponent. -/
def floatToken (neg : Bool) (ip : List Char) (fp : Option (List Char))
    (ex : Option (Bool × List Char)) : List Char :=
  (if neg then ['-'] else []) ++ (ip ++ (fractionPart fp ++ exponentPart ex))

/-- The value read back from the printed form of an amount. -/
def printedValue (a : ℚ) : ℚ := (floatValue (putDouble a)).getD 0

/-- The value denoted by a floating literal given by its parts. -/
def tokenValue (neg : Bool) (ip : List Char) (fp : Option (List Char))
    (ex : Option (Bool × List Char)) : ℚ :=
  (if neg then -1 else 1) *
    (((digitsVal (ip ++ fp.getD []) : ℚ) / 10 ^ (fp.getD []).length) *
      (match ex with
       | none => 1
       | some e => if e.1 then 1 / 10 ^ digitsVal e.2 else 10 ^ digitsVal e.2))

/-- A text is a complete floating literal: it is assembled from integer digits
(at least one), an optional fraction of digits and an optional exponent with
at least one digit. -/
def IsFloatToken (neg : Bool) (tok : List Char) : Prop :=
  ∃ (ip : List Char) (fp : Option (List Char)) (ex : Option (Bool × List Char)),
    tok = floatToken neg ip fp ex ∧ (∀ c ∈ ip, c.isDigit = true) ∧ ip ≠ [] ∧
    (∀ f, fp = some f → ∀ c ∈ f, c.isDigit = true) ∧
    (∀ e, ex = some e → (∀ c ∈ e.2, c.isDigit = true) ∧ e.2 ≠ [])

/-- The transaction that iteration `i` of the reading loop stores when all of
its extractions fail at the sentry: the uninitialised locals and the empty
description. -/
def Uninit.row (u : Uninit) (i : Nat) : Transaction :=
  { type := u.type i, amount := u.amount i, description := [], category := u.category i,
    date := u.date i }

/-- The printed form of amount `a` is read back as `b`: `file >> amount`, on
the text `file << amount` wrote between two blanks, stores `b` and stops in
front of the second blank with the stream still good. -/
def ReadsBack (F : AmountFormat) (a b : ℚ) : Prop :=
  ∀ (old : ℚ) (rest : List Char),
    IStream.extractDouble F
        { buf := ' ' :: (F.put a ++ ' ' :: rest), eofbit := false, failbit := false } old =
      (b, { buf := ' ' :: rest, eofbit := false, failbit := false })

/-- Signed contribution of one transaction to the balance. -/
def signedAmount (t : Transaction) : ℚ :=
  if t.type = TransactionType.INCOME then t.amount else -t.amount

/-- Sum of the entries of a map stored under one key. -/
def StdMap.valueAt (m : StdMap) (c : Category) : ℚ :=
  ((m.filter (fun e => decide (e.1 = c))).map Prod.snd).sum

/-- Keys of a map in iteration order. -/
def StdMap.keys (m : StdMap) : List Category := m.map Prod.fst

/-- Sum of the amounts of the transactions selected by a type test and a category. -/
def amountOf (p : Transaction → Bool) (ts : List Transaction) (c : Category) : ℚ :=
  ((ts.filter (fun t => p t && decide (t.category = c))).map Transaction.amount).sum

/-- The type test `getType() == TransactionType::INCOME`. -/
def isIncome (t : Transaction) : Bool := decide (t.type = TransactionType.INCOME)

/-- The transactions of the worked example: Income 1000.00 Salary, Expense
250.50 Food, Expense 40.00 Transport. -/
def exampleTransactions : List Transaction :=
  [ { type := TransactionType.INCOME, amount := 1000, description := "March pay".toList,
      category := Category.SALARY, date := 1700000000 },
    { type := TransactionType.EXPENSE, amount := 250.5, description := [],
      category := Category.FOOD, date := 1700000100 },
    { type := TransactionType.EXPENSE, amount := 40, description := " bus ticket".toList,
      category := Category.TRANSPORT, date := 1700000200 } ]

/-- The ledger of the worked example under the display name "Alex". -/
def exampleLedger : FinanceManager :=
  { transactions := exampleTransactions, username := "Alex".toList }

/-- Uninitialised locals that all happen to hold zero. -/
def zeroUninit : Uninit :=
  { count := 0, type := fun _ => 0, amount := fun _ => 0, category := fun _ => 0,
    date := fun _ => 0 }

/-! ## Lemmas on balances and maps -/

theorem foldl_balanceStep (ts : List Transaction) (b : ℚ) :
    ts.foldl balanceStep b = b + (ts.map signedAmount).sum := by
  induction ts generalizing b with
  | nil => simp
  | cons t ts ih =>
    simp only [List.foldl_cons, List.map_cons, List.sum_cons, ih]
    unfold balanceStep signedAmount
    split <;> ring

theorem foldl_total (m : StdMap) (a : ℚ) :
    m.foldl (fun total entry => total + entry.2) a = a + (m.map Prod.snd).sum := by
  induction m generalizing a with
  | nil => simp
  | cons e m ih => simp only [List.foldl_cons, List.map_cons, List.sum_cons, ih]; ring

theorem total_eq_sum (m : StdMap) : StdMap.total m = (m.map Prod.snd).sum := by
  unfold StdMap.total
  rw [foldl_total]; simp

theorem total_addAt (m : StdMap) (k : Category) (v : ℚ) :
    StdMap.total (StdMap.addAt m k v) = StdMap.total m + v := by
  simp only [total_eq_sum]
  induction m with
  | nil => simp [StdMap.addAt]
  | cons e m ih =>
    obtain ⟨k', v'⟩ := e
    unfold StdMap.addAt
    split
    · simp; ring
    · split
      · simp; ring
      · simp only [List.map_cons, List.sum_cons, ih]; ring

theorem keys_addAt (m : StdMap) (k : Category) (v : ℚ) (c : Category) :
    c ∈ StdMap.keys (StdMap.addAt m k v) ↔ c = k ∨ c ∈ StdMap.keys m := by
  induction m with
  | nil => simp [StdMap.addAt, StdMap.keys]
  | cons e m ih =>
    obtain ⟨k', v'⟩ := e
    unfold StdMap.addAt
    split
    · simp [StdMap.keys]
    · split
      · rename_i h; subst h; simp [StdMap.keys]
      · simp only [StdMap.keys, List.map_cons, List.mem_cons] at ih ⊢
        rw [ih]; tauto

theorem sorted_addAt (m : StdMap) (k : Category) (v : ℚ)
    (h : (StdMap.keys m).Pairwise (· < ·)) :
    (StdMap.keys (StdMap.addAt m k v)).Pairwise (· < ·) := by
  induction m with
  | nil => simp [StdMap.addAt, StdMap.keys]
  | cons e m ih =>
    obtain ⟨k', v'⟩ := e
    have h' := h
    simp only [StdMap.keys, List.map_cons, List.pairwise_cons] at h'
    unfold StdMap.addAt
    split
    · rename_i hlt
      simp only [StdMap.keys, List.map_cons, List.pairwise_cons, List.mem_cons]
      refine ⟨?_, h'.1, h'.2⟩
      rintro a (rfl | ha)
      · exact hlt
      · exact lt_trans hlt (h'.1 a ha)
    · split
      · simpa [StdMap.keys] using h'
      · rename_i h1 h2
        have hk : k' < k := lt_of_le_of_ne (not_lt.mp h1) (fun e => h2 e.symm)
        have ih' := ih h'.2
        simp only [StdMap.keys, List.map_cons, List.pairwise_cons]
        refine ⟨?_, ih'⟩
        intro a ha
        rcases (keys_addAt m k v a).mp ha with rfl | ha'
        · exact hk
        · exact h'.1 a ha'

theorem valueAt_addAt (m : StdMap) (k : Category) (v : ℚ) (c : Category) :
    StdMap.valueAt (StdMap.addAt m k v) c = StdMap.valueAt m c + (if k = c then v else 0) := by
  induction m with
  | nil => by_cases h : k = c <;> simp [StdMap.addAt, StdMap.valueAt, h]
  | cons e m ih =>
    obtain ⟨k', v'⟩ := e
    unfold StdMap.addAt
    split
    · by_cases h : k = c <;> by_cases h2 : k' = c <;>
        simp [StdMap.valueAt, List.filter_cons, h, h2] <;> ring
    · split
      · rename_i h; subst h
        by_cases h : k = c
        · simp [StdMap.valueAt, List.filter_cons, h]; ring
        · simp [StdMap.valueAt, List.filter_cons, h]
      · simp only [StdMap.valueAt] at ih
        by_cases h2 : k' = c <;>
          simp only [StdMap.valueAt, List.filter_cons, h2, decide_True, decide_False, if_true,
            if_false, List.map_cons, List.sum_cons, ih, Bool.false_eq_true]
        ring

theorem valueAt_of_mem (m : StdMap) (h : (StdMap.keys m).Pairwise (· < ·)) (c : Category) (v : ℚ)
    (hm : (c, v) ∈ m) : StdMap.valueAt m c = v := by
  induction m with
  | nil => simp at hm
  | cons e m ih =>
    obtain ⟨k', v'⟩ := e
    simp only [StdMap.keys, List.map_cons, List.pairwise_cons] at h
    rcases List.mem_cons.mp hm with heq | hin
    · have h1 : k' = c := (Prod.mk.inj heq).1.symm
      have h2 : v' = v := (Prod.mk.inj heq).2.symm
      subst h1; subst h2
      have hnot : m.filter (fun e => decide (e.1 = k')) = [] := by
        rw [List.filter_eq_nil_iff]
        intro e he
        have hlt : k' < e.1 := h.1 e.1 (List.mem_map_of_mem Prod.fst he)
        simpa using (ne_of_lt hlt).symm
      simp [StdMap.valueAt, List.filter_cons, hnot]
    · have hlt : k' < c := h.1 c (List.mem_map_of_mem Prod.fst hin)
      have hne : ¬ k' = c := ne_of_lt hlt
      have := ih h.2 hin
      simp only [StdMap.valueAt] at this
      simp [StdMap.valueAt, List.filter_cons, hne, this]

theorem groupFold_keys_income (ts : List Transaction) (maps : StdMap × StdMap) (c : Category) :
    c ∈ StdMap.keys (ts.foldl groupStep maps).1 ↔
      c ∈ StdMap.keys maps.1 ∨ ∃ t ∈ ts, t.type = TransactionType.INCOME ∧ t.category = c := by
  induction ts generalizing maps with
  | nil => simp
  | cons t ts ih =>
    rw [List.foldl_cons, ih]
    unfold groupStep
    by_cases h : t.type = TransactionType.INCOME
    · simp only [h, if_true, keys_addAt, List.mem_cons, exists_eq_or_imp, true_and]
      constructor
      · rintro ((rfl | h1) | h2)
        · exact Or.inr (Or.inl rfl)
        · exact Or.inl h1
        · exact Or.inr (Or.inr h2)
      · rintro (h1 | h2 | h2)
        · exact Or.inl (Or.inr h1)
        · exact Or.inl (Or.inl h2.symm)
        · exact Or.inr h2
    · simp only [h, if_false, List.mem_cons, exists_eq_or_imp, false_and, false_or]

theorem groupFold_keys_expense (ts : List Transaction) (maps : StdMap × StdMap) (c : Category) :
    c ∈ StdMap.keys (ts.foldl groupStep maps).2 ↔
      c ∈ StdMap.keys maps.2 ∨ ∃ t ∈ ts, t.type ≠ TransactionType.INCOME ∧ t.category = c := by
  induction ts generalizing maps with
  | nil => simp
  | cons t ts ih =>
    rw [List.foldl_cons, ih]
    unfold groupStep
    by_cases h : t.type = TransactionType.INCOME
    · simp only [h, if_true, List.mem_cons, exists_eq_or_imp, ne_eq, not_true_eq_false,
        false_and, false_or]
    · simp only [h, if_false, keys_addAt, List.mem_cons, exists_eq_or_imp, ne_eq,
        not_false_eq_true, true_and]
      constructor
      · rintro ((rfl | h1) | h2)
        · exact Or.inr (Or.inl rfl)
        · exact Or.inl h1
        · exact Or.inr (Or.inr h2)
      · rintro (h1 | h2 | h2)
        · exact Or.inl (Or.inr h1)
        · exact Or.inl (Or.inl h2.symm)
        · exact Or.inr h2

theorem groupFold_sorted (ts : List Transaction) (maps : StdMap × StdMap)
    (h1 : (StdMap.keys maps.1).Pairwise (· < ·)) (h2 : (StdMap.keys maps.2).Pairwise (· < ·)) :
    (StdMap.keys (ts.foldl groupStep maps).1).Pairwise (· < ·) ∧
      (StdMap.keys (ts.foldl groupStep maps).2).Pairwise (· < ·) := by
  induction ts generalizing maps with
  | nil => exact ⟨h1, h2⟩
  | cons t ts ih =>
    rw [List.foldl_cons]
    apply ih
    · unfold groupStep; split
      · exact sorted_addAt _ _ _ h1
      · exact h1
    · unfold groupStep; split
      · exact h2
      · exact sorted_addAt _ _ _ h2

theorem groupFold_valueAt_income (ts : List Transaction) (maps : StdMap × StdMap) (c : Category) :
    StdMap.valueAt (ts.foldl groupStep maps).1 c =
      StdMap.valueAt maps.1 c + amountOf isIncome ts c := by
  induction ts generalizing maps with
  | nil => simp [amountOf]
  | cons t ts ih =>
    rw [List.foldl_cons, ih]
    unfold groupStep
    by_cases h : t.type = TransactionType.INCOME <;> by_cases hc : t.category = c <;>
      simp [h, hc, valueAt_addAt, amountOf, isIncome, List.filter_cons]
    ring

theorem groupFold_valueAt_expense (ts : List Transaction) (maps : StdMap × StdMap) (c : Category) :
    StdMap.valueAt (ts.foldl groupStep maps).2 c =
      StdMap.valueAt maps.2 c + amountOf (fun t => !isIncome t) ts c := by
  induction ts generalizing maps with
  | nil => simp [amountOf]
  | cons t ts ih =>
    rw [List.foldl_cons, ih]
    unfold groupStep
    by_cases h : t.type = TransactionType.INCOME <;> by_cases hc : t.category = c <;>
      simp [h, hc, valueAt_addAt, amountOf, isIncome, List.filter_cons]
    ring

theorem groupFold_totals (ts : List Transaction) (maps : StdMap × StdMap) :
    StdMap.total (ts.foldl groupStep maps).1 - StdMap.total (ts.foldl groupStep maps).2 =
      StdMap.total maps.1 - StdMap.total maps.2 + (ts.map signedAmount).sum := by
  induction ts generalizing maps with
  | nil => simp
  | cons t ts ih =>
    rw [List.foldl_cons, ih]
    unfold groupStep signedAmount
    by_cases h : t.type = TransactionType.INCOME
    · simp only [h, if_true, total_addAt, List.map_cons, List.sum_cons]; ring
    · simp only [h, if_false, total_addAt, List.map_cons, List.sum_cons]; ring

theorem report_of_ne_nil (m : FinanceManager) (h : m.transactions ≠ []) :
    m.generateCategoryReport =
      some { incomeByCategory := (groupByCategory m.transactions).1,
             totalIncome := StdMap.total (groupByCategory m.transactions).1,
             expenseByCategory := (groupByCategory m.transactions).2,
             totalExpense := StdMap.total (groupByCategory m.transactions).2,
             balance := StdMap.total (groupByCategory m.transactions).1 -
               StdMap.total (groupByCategory m.transactions).2 } := by
  unfold FinanceManager.generateCategoryReport
  have : m.transactions.isEmpty = false := by
    cases hm : m.transactions with
    | nil => exact absurd hm h
    | cons _ _ => rfl
  simp [this]

theorem sorted_keys_eq (l₁ l₂ : List Category) (h₁ : l₁.Pairwise (· < ·))
    (h₂ : l₂.Pairwise (· < ·)) (h : ∀ c, c ∈ l₁ ↔ c ∈ l₂) : l₁ = l₂ := by
  have n₁ : l₁.Nodup := h₁.imp (fun hab => ne_of_lt hab)
  have n₂ : l₂.Nodup := h₂.imp (fun hab => ne_of_lt hab)
  exact List.eq_of_perm_of_sorted ((List.perm_ext_iff_of_nodup n₁ n₂).mpr h) h₁ h₂

/-! ## Lemmas on the text of numbers -/

theorem digitChar_isDigit (d : Nat) (h : d < 10) : (Char.ofNat (48 + d)).isDigit = true := by
  interval_cases d <;> decide

theorem digitChar_toNat (d : Nat) (h : d < 10) : (Char.ofNat (48 + d)).toNat - 48 = d := by
  interval_cases d <;> decide

theorem isDigit_not_space (c : Char) (h : c.isDigit = true) : isSpace c = false := by
  cases hs : isSpace c with
  | false => rfl
  | true =>
    exfalso
    simp only [isSpace, Bool.or_eq_true, beq_iff_eq] at hs
    rcases hs with ((((rfl | rfl) | rfl) | rfl) | rfl) | rfl <;> exact absurd h (by decide)

theorem scanSign_minus (cs : List Char) : scanSign ('-' :: cs) = (true, cs) := by
  simp [scanSign]

theorem isDigit_not_sign (c : Char) (h : c.isDigit = true) : c ≠ '-' ∧ c ≠ '+' := by
  constructor <;> (intro hc; subst hc; revert h; decide)

theorem putNatAux_append (fuel n : Nat) (acc : List Char) :
    putNatAux fuel n acc = putNatAux fuel n [] ++ acc := by
  induction fuel generalizing n acc with
  | zero => simp [putNatAux]
  | succ fuel ih =>
    unfold putNatAux
    split
    · simp
    · rw [ih, ih (n / 10) [_]]; simp

theorem putNatAux_digits (fuel n : Nat) (c : Char) (hc : c ∈ putNatAux fuel n []) :
    c.isDigit = true := by
  induction fuel generalizing n with
  | zero => simp [putNatAux] at hc
  | succ fuel ih =>
    unfold putNatAux at hc
    split at hc
    · rename_i h
      simp only [List.mem_singleton] at hc
      subst hc; exact digitChar_isDigit n h
    · rw [putNatAux_append] at hc
      rcases List.mem_append.mp hc with h | h
      · exact ih _ h
      · simp only [List.mem_singleton] at h
        subst h; exact digitChar_isDigit _ (Nat.mod_lt _ (by decide))

theorem putNatAux_val (fuel n : Nat) (acc : List Char) (h : n < fuel) :
    (putNatAux fuel n acc).foldl (fun v c => 10 * v + (c.toNat - 48)) 0 =
      acc.foldl (fun v c => 10 * v + (c.toNat - 48)) n := by
  induction fuel generalizing n acc with
  | zero => omega
  | succ fuel ih =>
    unfold putNatAux
    split
    · rename_i h10
      simp only [List.foldl_cons, Nat.mul_zero, Nat.zero_add]
      rw [digitChar_toNat n h10]
    · rename_i h10
      rw [ih (n / 10) _ (by omega)]
      simp only [List.foldl_cons]
      rw [digitChar_toNat _ (Nat.mod_lt _ (by decide))]
      congr 1
      omega

theorem putNat_digits (n : Nat) (c : Char) (hc : c ∈ putNat n) : c.isDigit = true :=
  putNatAux_digits _ _ c hc

theorem putNat_val (n : Nat) : digitsVal (putNat n) = n := by
  unfold digitsVal putNat
  rw [putNatAux_val _ _ _ (Nat.lt_succ_self n)]
  rfl

theorem putNat_ne_nil (n : Nat) : putNat n ≠ [] := by
  unfold putNat putNatAux
  split
  · simp
  · rw [putNatAux_append]; simp

theorem span_digits (ds : List Char) (c : Char) (rest : List Char)
    (hd : ∀ x ∈ ds, x.isDigit = true) (hc : c.isDigit = false) :
    (ds ++ c :: rest).takeWhile Char.isDigit = ds ∧
      (ds ++ c :: rest).dropWhile Char.isDigit = c :: rest := by
  constructor
  · rw [List.takeWhile_append_of_pos hd]; simp [List.takeWhile_cons, hc]
  · rw [List.dropWhile_append_of_pos hd]; simp [List.dropWhile_cons, hc]

theorem scanSign_putNat (n : Nat) (rest : List Char) :
    scanSign (putNat n ++ rest) = (false, putNat n ++ rest) := by
  cases h : putNat n with
  | nil => exact absurd h (putNat_ne_nil n)
  | cons c cs =>
    have hc : c.isDigit = true := putNat_digits n c (by rw [h]; simp)
    have := isDigit_not_sign c hc
    simp [scanSign, this.1, this.2]

theorem getUnsigned_putNat (w n : Nat) (hn : n < 2 ^ w) (c : Char) (rest : List Char)
    (hc : c.isDigit = false) :
    getUnsigned w (putNat n ++ c :: rest) = (n, false, c :: rest) := by
  unfold getUnsigned
  rw [scanSign_putNat]
  obtain ⟨h1, h2⟩ := span_digits (putNat n) c rest (putNat_digits n) hc
  simp only [h1, h2, putNat_val]
  have hne : (putNat n).isEmpty = false := by
    cases h : putNat n with
    | nil => exact absurd h (putNat_ne_nil n)
    | cons _ _ => rfl
  have hlt : ¬ (2 ^ w - 1 < n) := by omega
  simp [hne, hlt]

theorem getSigned_putInt (w : Nat) (z : Int) (hlo : -(2 ^ (w - 1) : Int) ≤ z)
    (hhi : z < 2 ^ (w - 1)) (c : Char) (rest : List Char) (hc : c.isDigit = false) :
    getSigned w (putInt z ++ c :: rest) = (z, false, c :: rest) := by
  unfold getSigned putInt
  have hne : ∀ n, (putNat n).isEmpty = false := by
    intro n
    cases h : putNat n with
    | nil => exact absurd h (putNat_ne_nil n)
    | cons _ _ => rfl
  have hcast : ((2 ^ (w - 1) : Nat) : Int) = (2 ^ (w - 1) : Int) := by push_cast; rfl
  have hp : 0 < 2 ^ (w - 1) := Nat.two_pow_pos (w - 1)
  by_cases hz : z < 0
  · obtain ⟨h1, h2⟩ := span_digits (putNat (-z).toNat) c rest (putNat_digits _) hc
    have hb : ¬ (2 ^ (w - 1) < (-z).toNat) := by omega
    have hv : -(((-z).toNat : Nat) : Int) = z := by omega
    simp only [hz, if_true, List.cons_append, scanSign_minus, h1, h2, putNat_val, hne, hb,
      if_false, hv, Bool.false_eq_true]
  · obtain ⟨h1, h2⟩ := span_digits (putNat z.toNat) c rest (putNat_digits _) hc
    have hb : ¬ (2 ^ (w - 1) - 1 < z.toNat) := by omega
    have hv : ((z.toNat : Nat) : Int) = z := by omega
    simp only [hz, if_false, scanSign_putNat, h1, h2, putNat_val, hne, hb, hv,
      Bool.false_eq_true]

theorem putInt_not_space (z : Int) (rest : List Char) :
    (putInt z ++ rest).dropWhile isSpace = putInt z ++ rest := by
  unfold putInt
  split
  · simp [List.dropWhile_cons, isSpace]
  · cases h : putNat z.toNat with
    | nil => exact absurd h (putNat_ne_nil _)
    | cons c cs =>
      have hc : c.isDigit = true := putNat_digits _ c (by rw [h]; simp)
      simp [List.dropWhile_cons, isDigit_not_space c hc]

theorem putNat_not_space (n : Nat) (rest : List Char) :
    (putNat n ++ rest).dropWhile isSpace = putNat n ++ rest := by
  cases h : putNat n with
  | nil => exact absurd h (putNat_ne_nil _)
  | cons c cs =>
    have hc : c.isDigit = true := putNat_digits _ c (by rw [h]; simp)
    simp [List.dropWhile_cons, isDigit_not_space c hc]

/-! ## Lemmas on stream operations -/

theorem extractInt_putInt (w : Nat) (z : Int) (hlo : -(2 ^ (w - 1) : Int) ≤ z)
    (hhi : z < 2 ^ (w - 1)) (rest : List Char) (old : Int) :
    IStream.extractInt w { buf := putInt z ++ ' ' :: rest, eofbit := false, failbit := false } old =
      (z, { buf := ' ' :: rest, eofbit := false, failbit := false }) := by
  have hs : (IStream.mk (putInt z ++ ' ' :: rest) false false).sentry =
      (true, IStream.mk (putInt z ++ ' ' :: rest) false false) := by
    unfold IStream.sentry
    simp only [IStream.good, Bool.not_false, Bool.and_self, if_true, putInt_not_space]
    cases h : putInt z ++ ' ' :: rest with
    | nil => simp at h
    | cons c cs => rfl
  unfold IStream.extractInt
  rw [hs]
  simp [getSigned_putInt w z hlo hhi ' ' rest (by decide)]

theorem extractInt_blank_putInt (w : Nat) (z : Int) (hlo : -(2 ^ (w - 1) : Int) ≤ z)
    (hhi : z < 2 ^ (w - 1)) (rest : List Char) (old : Int) :
    IStream.extractInt w
        { buf := ' ' :: (putInt z ++ ' ' :: rest), eofbit := false, failbit := false } old =
      (z, { buf := ' ' :: rest, eofbit := false, failbit := false }) := by
  have hs : (IStream.mk (' ' :: (putInt z ++ ' ' :: rest)) false false).sentry =
      (true, IStream.mk (putInt z ++ ' ' :: rest) false false) := by
    unfold IStream.sentry
    have hd : (' ' :: (putInt z ++ ' ' :: rest)).dropWhile isSpace = putInt z ++ ' ' :: rest := by
      rw [List.dropWhile_cons]
      simp only [show isSpace ' ' = true from by decide, if_true, putInt_not_space]
    simp only [IStream.good, Bool.not_false, Bool.and_self, if_true, hd]
    cases h : putInt z ++ ' ' :: rest with
    | nil => simp at h
    | cons c cs => rfl
  unfold IStream.extractInt
  rw [hs]
  simp [getSigned_putInt w z hlo hhi ' ' rest (by decide)]

theorem extractSize_putNat (n : Nat) (hn : n < 2 ^ 64) (rest : List Char) (old : Nat) :
    IStream.extractSize { buf := putNat n ++ '\n' :: rest, eofbit := false, failbit := false }
        old =
      (n, { buf := '\n' :: rest, eofbit := false, failbit := false }) := by
  have hs : (IStream.mk (putNat n ++ '\n' :: rest) false false).sentry =
      (true, IStream.mk (putNat n ++ '\n' :: rest) false false) := by
    unfold IStream.sentry
    simp only [IStream.good, Bool.not_false, Bool.and_self, if_true, putNat_not_space]
    cases h : putNat n ++ '\n' :: rest with
    | nil => simp at h
    | cons c cs => rfl
  unfold IStream.extractSize
  rw [hs]
  simp [getUnsigned_putNat 64 n hn '\n' rest (by decide)]

theorem ignore_cons (c : Char) (rest : List Char) :
    IStream.ignore { buf := c :: rest, eofbit := false, failbit := false } =
      { buf := rest, eofbit := false, failbit := false } := rfl

theorem getline_line (line rest : List Char) (old : List Char) (h : '\n' ∉ line) :
    IStream.getline { buf := line ++ '\n' :: rest, eofbit := false, failbit := false } old =
      (line, { buf := rest, eofbit := false, failbit := false }) := by
  have hall : ∀ x ∈ line, (fun x : Char => x != '\n') x = true := by
    intro x hx
    simp only [bne_iff_ne, ne_eq]
    intro hxe; subst hxe; exact h hx
  have ht : (line ++ '\n' :: rest).takeWhile (fun x => x != '\n') = line := by
    rw [List.takeWhile_append_of_pos hall]; simp [List.takeWhile_cons]
  have hd : (line ++ '\n' :: rest).dropWhile (fun x => x != '\n') = '\n' :: rest := by
    rw [List.dropWhile_append_of_pos hall]; simp [List.dropWhile_cons]
  unfold IStream.getline
  simp only [IStream.good, Bool.not_false, Bool.and_self, if_true]
  cases hb : line ++ '\n' :: rest with
  | nil => simp at hb
  | cons c cs =>
    simp only
    rw [← hb, ht, hd]

theorem foldl_saveToFile (F : AmountFormat) (ts : List Transaction) (header : List Char) :
    ts.foldl (fun file t => file ++ t.saveToFile F) header =
      header ++ (ts.map (Transaction.saveToFile F)).flatten := by
  induction ts generalizing header with
  | nil => simp
  | cons t ts ih => rw [List.foldl_cons, ih]; simp

theorem sentry_failed (s : IStream) (h : s.failbit = true) : s.sentry = (false, s) := by
  unfold IStream.sentry
  cases s with
  | mk buf e f =>
    simp only at h
    subst h
    simp [IStream.good]

theorem ignore_failed (s : IStream) (h : s.failbit = true) : s.ignore = s := by
  unfold IStream.ignore
  cases s with
  | mk buf e f =>
    simp only at h
    subst h
    simp [IStream.good]

theorem getline_failed (s : IStream) (old : List Char) (h : s.failbit = true) :
    s.getline old = (old, s) := by
  unfold IStream.getline
  cases s with
  | mk buf e f =>
    simp only at h
    subst h
    simp [IStream.good]

theorem loadLoop_failed (F : AmountFormat) (u : Uninit) (k i : Nat) (s : IStream)
    (h : s.failbit = true) (acc : List Transaction) :
    loadLoop F u k i s acc = acc ++ (List.range' i k).map u.row := by
  induction k generalizing i acc with
  | zero => simp [loadLoop]
  | succ k ih =>
    unfold loadLoop
    simp only [IStream.extractInt, IStream.extractDouble, sentry_failed s h, ignore_failed s h,
      getline_failed s _ h, Bool.false_eq_true, if_false]
    rw [ih]
    simp [List.range'_succ, Uninit.row]

theorem loadLoop_exhausted (F : AmountFormat) (u : Uninit) (k i : Nat) (acc : List Transaction) :
    loadLoop F u k i { buf := [], eofbit := false, failbit := false } acc =
      acc ++ (List.range' i k).map u.row := by
  cases k with
  | zero => simp [loadLoop]
  | succ k =>
    have hs : (IStream.mk [] false false).sentry = (false, IStream.mk [] true true) := rfl
    have hf : (IStream.mk [] true true).failbit = true := rfl
    unfold loadLoop
    simp only [IStream.extractInt, IStream.extractDouble, hs, sentry_failed _ hf,
      ignore_failed _ hf, getline_failed _ _ hf, Bool.false_eq_true, if_false]
    rw [loadLoop_failed F u k (i + 1) _ hf]
    simp [List.range'_succ, Uninit.row]

theorem loadLoop_length (F : AmountFormat) (u : Uninit) (n i : Nat) (s : IStream)
    (acc : List Transaction) : (loadLoop F u n i s acc).length = acc.length + n := by
  induction n generalizing i s acc with
  | zero => simp [loadLoop]
  | succ n ih =>
    unfold loadLoop
    simp only [ih, List.length_append, List.length_singleton]
    omega

theorem loadLoop_lines (F : AmountFormat) (u : Uninit) (r : ℚ → ℚ) (ts : List Transaction)
    (hdesc : ∀ t ∈ ts, '\n' ∉ t.description) (hrange : ∀ t ∈ ts, t.InRange)
    (hamount : ∀ t ∈ ts, ReadsBack F t.amount (r t.amount))
    (k i : Nat) (acc : List Transaction) :
    loadLoop F u (ts.length + k) i
        { buf := (ts.map (Transaction.saveToFile F)).flatten, eofbit := false, failbit := false }
        acc =
      acc ++ ts.map (fun t => { t with amount := r t.amount }) ++
        (List.range' (i + ts.length) k).map u.row := by
  induction ts generalizing i acc with
  | nil => simp [loadLoop_exhausted]
  | cons t ts ih =>
    obtain ⟨⟨ht1, ht2⟩, ⟨hc1, hc2⟩, ⟨hd1, hd2⟩⟩ := hrange t (List.mem_cons_self _ _)
    have hnl := hdesc t (List.mem_cons_self _ _)
    have hrb := hamount t (List.mem_cons_self _ _)
    have hbuf : ((t :: ts).map (Transaction.saveToFile F)).flatten =
        putInt t.type ++ ' ' :: (F.put t.amount ++ ' ' :: (putInt t.category ++ ' ' ::
          (putInt t.date ++ ' ' :: (t.description ++ '\n' ::
            (ts.map (Transaction.saveToFile F)).flatten)))) := by
      simp [Transaction.saveToFile]
    have hlen : (t :: ts).length + k = (ts.length + k) + 1 := by simp; omega
    rw [hbuf, hlen]
    unfold loadLoop
    simp only
    rw [extractInt_putInt 32 t.type ht1 ht2]
    simp only
    rw [hrb]
    simp only
    rw [extractInt_blank_putInt 32 t.category hc1 hc2]
    simp only
    rw [extractInt_blank_putInt 64 t.date hd1 hd2]
    simp only
    rw [ignore_cons, getline_line _ _ _ hnl]
    simp only
    rw [ih (fun x hx => hdesc x (List.mem_cons_of_mem _ hx))
      (fun x hx => hrange x (List.mem_cons_of_mem _ hx))
      (fun x hx => hamount x (List.mem_cons_of_mem _ hx))]
    have hidx : i + 1 + ts.length = i + (t :: ts).length := by simp; omega
    rw [hidx]
    simp

theorem load_lines (F : AmountFormat) (u : Uninit) (r : ℚ → ℚ) (prior : FinanceManager)
    (name : List Char) (rows : List Transaction) (k : Nat)
    (hname : '\n' ∉ name) (hdesc : ∀ t ∈ rows, '\n' ∉ t.description)
    (hrange : ∀ t ∈ rows, t.InRange) (hsize : rows.length + k < 2 ^ 64)
    (hamount : ∀ t ∈ rows, ReadsBack F t.amount (r t.amount)) :
    prior.loadFromFile F u
        (some (name ++ '\n' :: (putNat (rows.length + k) ++ '\n' ::
          (rows.map (Transaction.saveToFile F)).flatten))) =
      (true, { transactions := rows.map (fun t => { t with amount := r t.amount }) ++
                 (List.range' rows.length k).map u.row,
               username := name }) := by
  unfold FinanceManager.loadFromFile
  simp only [IStream.ofContent]
  rw [getline_line _ _ _ hname]
  simp only
  rw [extractSize_putNat _ hsize, ignore_cons]
  simp only
  rw [loadLoop_lines F u r rows hdesc hrange hamount]
  simp

theorem fileText_eq (F : AmountFormat) (m : FinanceManager) :
    m.fileText F = m.username ++ '\n' :: (putNat (m.transactions.length + 0) ++ '\n' ::
      (m.transactions.map (Transaction.saveToFile F)).flatten) := by
  unfold FinanceManager.fileText
  simp [foldl_saveToFile]

theorem load_fileText (F : AmountFormat) (u : Uninit) (r : ℚ → ℚ) (m prior : FinanceManager)
    (hname : '\n' ∉ m.username) (hdesc : ∀ t ∈ m.transactions, '\n' ∉ t.description)
    (hrange : ∀ t ∈ m.transactions, t.InRange) (hsize : m.transactions.length < 2 ^ 64)
    (hamount : ∀ t ∈ m.transactions, ReadsBack F t.amount (r t.amount)) :
    prior.loadFromFile F u (some (m.fileText F)) =
      (true, { transactions := m.transactions.map (fun t => { t with amount := r t.amount }),
               username := m.username }) := by
  rw [fileText_eq]
  have h := load_lines F u r prior m.username m.transactions 0 hname hdesc hrange
    (by simpa using hsize) hamount
  simpa using h

/-! ## Lemmas on the default text form of amounts -/

/-- The model of the default output agrees with `%g` at six significant
digits on sample values: fixed and scientific notation, stripped zeros, ties. -/
theorem putDouble_samples :
    putDouble 0 = "0".toList ∧ putDouble 709.5 = "709.5".toList ∧
    putDouble 0.1 = "0.1".toList ∧ putDouble (1 / 3) = "0.333333".toList ∧
    putDouble (-42.125) = "-42.125".toList ∧ putDouble 999999 = "999999".toList ∧
    putDouble 1000000 = "1e+06".toList ∧ putDouble 1234567 = "1.23457e+06".toList ∧
    putDouble 123456.5 = "123456".toList ∧ putDouble 123457.5 = "123458".toList ∧
    putDouble 0.0001 = "0.0001".toList ∧ putDouble 0.00001 = "1e-05".toList ∧
    putDouble 0.000123456789 = "0.000123457".toList := by
  decide!

/-- The model of the floating extraction on sample inputs: where it stops and
what it stores, and inputs on which it fails. -/
theorem getDouble_samples :
    getDouble "250.5 0".toList = (some 250.5, " 0".toList) ∧
    getDouble "1.23457e+06 ".toList = (some 1234570, " ".toList) ∧
    getDouble "1e-05\n".toList = (some 0.00001, "\n".toList) ∧
    getDouble "-42.125x".toList = (some (-42.125), "x".toList) ∧
    getDouble "1.2.3".toList = (some 1.2, ".3".toList) ∧
    getDouble "abc".toList = (none, "abc".toList) ∧
    getDouble "inf".toList = (none, "inf".toList) ∧
    getDouble "1e+ ".toList = (none, " ".toList) := by
  decide!

theorem scanFloat_blank (tok : List Char) :
    ∀ (dec sci mant signOk : Bool),
      scanFloat dec sci mant signOk (tok ++ [' ']) = (tok, [' ']) →
      ∀ rest : List Char, scanFloat dec sci mant signOk (tok ++ ' ' :: rest) = (tok, ' ' :: rest) := by
  induction tok with
  | nil =>
    intro dec sci mant signOk _ rest
    simp [scanFloat]
  | cons c tok ih =>
    intro dec sci mant signOk h rest
    simp only [List.cons_append] at h ⊢
    unfold scanFloat at h ⊢
    split at h
    · rename_i h1
      simp only [Prod.mk.injEq, List.cons.injEq, true_and] at h
      have key := ih dec sci mant false (Prod.ext h.1 h.2) rest
      simp only [h1, if_true, key]
    · rename_i h1
      split at h
      · rename_i h2
        simp only [Prod.mk.injEq, List.cons.injEq, true_and] at h
        have key := ih dec sci true false (Prod.ext h.1 h.2) rest
        simp only [h1, h2, if_true, if_false, key, Bool.false_eq_true]
      · rename_i h2
        split at h
        · rename_i h3
          simp only [Prod.mk.injEq, List.cons.injEq, true_and] at h
          have key := ih true sci mant false (Prod.ext h.1 h.2) rest
          simp only [h1, h2, h3, if_true, if_false, key, Bool.false_eq_true]
        · rename_i h3
          split at h
          · rename_i h4
            simp only [Prod.mk.injEq, List.cons.injEq] at h
            have key := ih dec true mant true (Prod.ext h.1.2 h.2) rest
            have hc : c = 'e' := h.1.1.symm
            subst hc
            simp only [h1, h2, h3, h4, if_true, if_false, key, Bool.false_eq_true]
          · simp at h

theorem scanFloat_space (dec sci mant signOk : Bool) (c : Char) (cs : List Char)
    (hc : isSpace c = true) : scanFloat dec sci mant signOk (c :: cs) = ([], c :: cs) := by
  simp only [isSpace, Bool.or_eq_true, beq_iff_eq] at hc
  rcases hc with ((((rfl | rfl) | rfl) | rfl) | rfl) | rfl <;>
    cases dec <;> cases sci <;> cases mant <;> cases signOk <;> rfl

theorem readsBack_of_token (a b : ℚ)
    (hscan : scanFloat false false false true (putDouble a ++ [' ']) = (putDouble a, [' ']))
    (hval : floatValue (putDouble a) = some b) : ReadsBack defaultFormat a b := by
  intro old rest
  have hscan' := scanFloat_blank (putDouble a) false false false true hscan rest
  have hdrop : (putDouble a ++ ' ' :: rest).dropWhile isSpace = putDouble a ++ ' ' :: rest := by
    cases htok : putDouble a with
    | nil => rw [htok] at hval; simp [floatValue, scanSign] at hval
    | cons c cs =>
      cases hsp : isSpace c with
      | false => simp [List.dropWhile_cons, hsp]
      | true =>
        rw [htok] at hscan
        simp only [List.cons_append] at hscan
        rw [scanFloat_space _ _ _ _ c _ hsp] at hscan
        simp at hscan
  have hs : (IStream.mk (' ' :: (putDouble a ++ ' ' :: rest)) false false).sentry =
      (true, IStream.mk (putDouble a ++ ' ' :: rest) false false) := by
    unfold IStream.sentry
    have hd : (' ' :: (putDouble a ++ ' ' :: rest)).dropWhile isSpace =
        putDouble a ++ ' ' :: rest := by
      rw [List.dropWhile_cons]
      simp only [show isSpace ' ' = true from by decide, if_true, hdrop]
    simp only [IStream.good, Bool.not_false, Bool.and_self, if_true, hd]
    cases h : putDouble a ++ ' ' :: rest with
    | nil => simp at h
    | cons c cs => rfl
  show IStream.extractDouble defaultFormat
    (IStream.mk (' ' :: (putDouble a ++ ' ' :: rest)) false false) old = _
  unfold IStream.extractDouble
  rw [hs]
  simp [defaultFormat, getDouble, hscan', hval]

theorem scanFloat_cons (dec sci mant signOk : Bool) (c : Char) (cs : List Char) :
    scanFloat dec sci mant signOk (c :: cs) =
      if signOk && (c == '+' || c == '-') then
        (c :: (scanFloat dec sci mant false cs).1, (scanFloat dec sci mant false cs).2)
      else if c.isDigit then
        (c :: (scanFloat dec sci true false cs).1, (scanFloat dec sci true false cs).2)
      else if c == '.' && !dec && !sci then
        (c :: (scanFloat true sci mant false cs).1, (scanFloat true sci mant false cs).2)
      else if (c == 'e' || c == 'E') && !sci && mant then
        ('e' :: (scanFloat dec true mant true cs).1, (scanFloat dec true mant true cs).2)
      else ([], c :: cs) := by
  rw [scanFloat]

theorem scanFloat_digits (ds : List Char) (hd : ∀ c ∈ ds, c.isDigit = true) (hne : ds ≠ [])
    (dec sci mant signOk : Bool) (rest : List Char) :
    scanFloat dec sci mant signOk (ds ++ rest) =
      (ds ++ (scanFloat dec sci true false rest).1, (scanFloat dec sci true false rest).2) := by
  induction ds generalizing mant signOk with
  | nil => exact absurd rfl hne
  | cons c ds ih =>
    have hc : c.isDigit = true := hd c (List.mem_cons_self _ _)
    have hs := isDigit_not_sign c hc
    have h1 : (signOk && (c == '+' || c == '-')) = false := by
      simp [hs.1, hs.2]
    rw [List.cons_append, scanFloat_cons]
    simp only [h1, hc, if_true, Bool.false_eq_true, if_false]
    by_cases hds : ds = []
    · subst hds; simp
    · rw [ih (fun x hx => hd x (List.mem_cons_of_mem _ hx)) hds]
      simp

theorem scanFloat_digits_any (ds : List Char) (hd : ∀ c ∈ ds, c.isDigit = true)
    (dec sci : Bool) (rest : List Char) :
    scanFloat dec sci true false (ds ++ rest) =
      (ds ++ (scanFloat dec sci true false rest).1, (scanFloat dec sci true false rest).2) := by
  by_cases hds : ds = []
  · subst hds; simp
  · exact scanFloat_digits ds hd hds dec sci true false rest

theorem scanFloat_point (mant : Bool) (cs : List Char) :
    scanFloat false false mant false ('.' :: cs) =
      ('.' :: (scanFloat true false mant false cs).1, (scanFloat true false mant false cs).2) := by
  rw [scanFloat_cons]; rfl

theorem scanFloat_letter (dec : Bool) (cs : List Char) :
    scanFloat dec false true false ('e' :: cs) =
      ('e' :: (scanFloat dec true true true cs).1, (scanFloat dec true true true cs).2) := by
  rw [scanFloat_cons]; cases dec <;> rfl

theorem scanFloat_sign (dec sci mant neg : Bool) (cs : List Char) :
    scanFloat dec sci mant true ((if neg then '-' else '+') :: cs) =
      ((if neg then '-' else '+') :: (scanFloat dec sci mant false cs).1,
        (scanFloat dec sci mant false cs).2) := by
  rw [scanFloat_cons]; cases neg <;> rfl

theorem scanFloat_exponent (dec : Bool) (ex : Option (Bool × List Char))
    (hex : ∀ e, ex = some e → (∀ c ∈ e.2, c.isDigit = true) ∧ e.2 ≠ []) (rest : List Char) :
    scanFloat dec false true false (exponentPart ex ++ ' ' :: rest) =
      (exponentPart ex, ' ' :: rest) := by
  cases ex with
  | none => exact scanFloat_space _ _ _ _ ' ' rest (by decide)
  | some e =>
    obtain ⟨hd, hne⟩ := hex e rfl
    simp only [exponentPart, List.cons_append]
    rw [scanFloat_letter, scanFloat_sign, scanFloat_digits e.2 hd hne,
      scanFloat_space _ _ _ _ ' ' rest (by decide)]
    simp

theorem scanFloat_fraction (fp : Option (List Char)) (ex : Option (Bool × List Char))
    (hfp : ∀ f, fp = some f → ∀ c ∈ f, c.isDigit = true)
    (hex : ∀ e, ex = some e → (∀ c ∈ e.2, c.isDigit = true) ∧ e.2 ≠ []) (rest : List Char) :
    scanFloat false false true false ((fractionPart fp ++ exponentPart ex) ++ ' ' :: rest) =
      (fractionPart fp ++ exponentPart ex, ' ' :: rest) := by
  cases fp with
  | none =>
    simp only [fractionPart, List.nil_append]
    exact scanFloat_exponent false ex hex rest
  | some f =>
    simp only [fractionPart, List.cons_append, List.append_assoc]
    rw [scanFloat_point, scanFloat_digits_any f (hfp f rfl), scanFloat_exponent true ex hex rest]

theorem scanFloat_token (neg : Bool) (ip : List Char) (fp : Option (List Char))
    (ex : Option (Bool × List Char)) (hip : ∀ c ∈ ip, c.isDigit = true) (hne : ip ≠ [])
    (hfp : ∀ f, fp = some f → ∀ c ∈ f, c.isDigit = true)
    (hex : ∀ e, ex = some e → (∀ c ∈ e.2, c.isDigit = true) ∧ e.2 ≠ []) (rest : List Char) :
    scanFloat false false false true (floatToken neg ip fp ex ++ ' ' :: rest) =
      (floatToken neg ip fp ex, ' ' :: rest) := by
  have hbody : ∀ signOk, scanFloat false false false signOk
      ((ip ++ (fractionPart fp ++ exponentPart ex)) ++ ' ' :: rest) =
      (ip ++ (fractionPart fp ++ exponentPart ex), ' ' :: rest) := by
    intro signOk
    rw [List.append_assoc, scanFloat_digits ip hip hne, scanFloat_fraction fp ex hfp hex rest]
  unfold floatToken
  cases neg with
  | false => simpa using hbody true
  | true =>
    simp only [if_true, List.singleton_append, List.cons_append, List.nil_append]
    have h := scanFloat_sign false false false true
      ((ip ++ (fractionPart fp ++ exponentPart ex)) ++ ' ' :: rest)
    simp only [if_true] at h
    rw [h, hbody false]

theorem span_until (p : Char → Bool) (xs : List Char) (y : Char) (rest : List Char)
    (hx : ∀ x ∈ xs, p x = true) (hy : p y = false) :
    (xs ++ y :: rest).takeWhile p = xs ∧ (xs ++ y :: rest).dropWhile p = y :: rest := by
  constructor
  · rw [List.takeWhile_append_of_pos hx]; simp [List.takeWhile_cons, hy]
  · rw [List.dropWhile_append_of_pos hx]; simp [List.dropWhile_cons, hy]

theorem span_all (p : Char → Bool) (xs : List Char) (hx : ∀ x ∈ xs, p x = true) :
    xs.takeWhile p = xs ∧ xs.dropWhile p = [] := by
  have h1 := @List.takeWhile_append_of_pos _ p xs [] hx
  have h2 := @List.dropWhile_append_of_pos _ p xs [] hx
  simp only [List.append_nil, List.takeWhile_nil, List.dropWhile_nil] at h1 h2
  exact ⟨h1, h2⟩

theorem digit_ne (c sep : Char) (hc : c.isDigit = true) (hsep : sep.isDigit = false) :
    (c != sep) = true := by
  simp only [bne_iff_ne, ne_eq]
  intro h; subst h; rw [hc] at hsep; exact absurd hsep (by decide)

theorem scanSign_digits (ds : List Char) (rest : List Char) (hd : ∀ c ∈ ds, c.isDigit = true)
    (hne : ds ≠ []) : scanSign (ds ++ rest) = (false, ds ++ rest) := by
  cases ds with
  | nil => exact absurd rfl hne
  | cons c cs =>
    have := isDigit_not_sign c (hd c (List.mem_cons_self _ _))
    simp [scanSign, this.1, this.2]

theorem scanSign_sign (neg : Bool) (cs : List Char) :
    scanSign ((if neg then '-' else '+') :: cs) = (neg, cs) := by
  cases neg <;> simp [scanSign]

theorem floatValue_token (neg : Bool) (ip : List Char) (fp : Option (List Char))
    (ex : Option (Bool × List Char)) (hip : ∀ c ∈ ip, c.isDigit = true) (hne : ip ≠ [])
    (hfp : ∀ f, fp = some f → ∀ c ∈ f, c.isDigit = true)
    (hex : ∀ e, ex = some e → (∀ c ∈ e.2, c.isDigit = true) ∧ e.2 ≠ []) :
    floatValue (floatToken neg ip fp ex) = some (tokenValue neg ip fp ex) := by
  have hsign : scanSign (floatToken neg ip fp ex) =
      (neg, ip ++ (fractionPart fp ++ exponentPart ex)) := by
    unfold floatToken
    cases neg with
    | false => simpa using scanSign_digits ip _ hip hne
    | true => simp [scanSign_minus]
  have hipe : ∀ x ∈ ip, (x != 'e') = true := fun x hx => digit_ne x 'e' (hip x hx) (by decide)
  have hipp : ∀ x ∈ ip, (x != '.') = true := fun x hx => digit_ne x '.' (hip x hx) (by decide)
  have hipn : ip.isEmpty = false := by
    cases ip with
    | nil => exact absurd rfl hne
    | cons _ _ => rfl
  unfold floatValue
  rw [hsign]
  simp only
  cases fp with
  | none =>
    cases ex with
    | none =>
      simp only [fractionPart, exponentPart, List.append_nil]
      rw [(span_all _ ip hipe).1, (span_all _ ip hipe).2, (span_all _ ip hipp).1,
        (span_all _ ip hipp).2]
      have hc : 'e' ∉ ip := by
        intro h
        have := hipe 'e' h
        simp at this
      simp [hipn, hc, scanSign, tokenValue, digitsVal]
    | some e =>
      obtain ⟨hd, hne2⟩ := hex e rfl
      have hen : e.2.isEmpty = false := by
        cases h : e.2 with
        | nil => exact absurd h hne2
        | cons _ _ => rfl
      simp only [fractionPart, exponentPart, List.nil_append]
      rw [(span_until _ ip 'e' _ hipe (by decide)).1, (span_until _ ip 'e' _ hipe (by decide)).2,
        (span_all _ ip hipp).1, (span_all _ ip hipp).2]
      simp only [List.drop_succ_cons, List.drop_zero, scanSign_sign, List.drop_nil]
      simp [hipn, hen, tokenValue]
      cases e.1 <;> cases neg <;> simp <;> ring
  | some f =>
    have hfe : ∀ x ∈ f, (x != 'e') = true :=
      fun x hx => digit_ne x 'e' (hfp f rfl x hx) (by decide)
    have hmant : ∀ x ∈ ip ++ '.' :: f, (x != 'e') = true := by
      intro x hx
      rcases List.mem_append.mp hx with h | h
      · exact hipe x h
      · rcases List.mem_cons.mp h with h | h
        · subst h; decide
        · exact hfe x h
    cases ex with
    | none =>
      simp only [fractionPart, exponentPart, List.append_nil]
      rw [(span_all _ _ hmant).1, (span_all _ _ hmant).2,
        (span_until _ ip '.' f hipp (by decide)).1, (span_until _ ip '.' f hipp (by decide)).2]
      have hc : 'e' ∉ ip := by
        intro h
        have := hipe 'e' h
        simp at this
      have hc2 : 'e' ∉ f := by
        intro h
        have := hfe 'e' h
        simp at this
      simp [hipn, hc, hc2, scanSign, tokenValue, digitsVal]
    | some e =>
      obtain ⟨hd, hne2⟩ := hex e rfl
      have hen : e.2.isEmpty = false := by
        cases h : e.2 with
        | nil => exact absurd h hne2
        | cons _ _ => rfl
      simp only [fractionPart, exponentPart]
      have happ : ip ++ ('.' :: f ++ 'e' :: (if e.1 then '-' else '+') :: e.2) =
          (ip ++ '.' :: f) ++ 'e' :: (if e.1 then '-' else '+') :: e.2 := by simp
      rw [happ, (span_until _ _ 'e' _ hmant (by decide)).1,
        (span_until _ _ 'e' _ hmant (by decide)).2,
        (span_until _ ip '.' f hipp (by decide)).1, (span_until _ ip '.' f hipp (by decide)).2]
      simp only [List.drop_succ_cons, List.drop_zero, scanSign_sign]
      simp [hipn, hen, tokenValue]
      cases e.1 <;> cases neg <;> simp <;> ring

theorem stripZeros_digits (ds : List Char) (hd : ∀ c ∈ ds, c.isDigit = true) :
    ∀ c ∈ stripZeros ds, c.isDigit = true := by
  intro c hc
  unfold stripZeros at hc
  rw [List.mem_reverse] at hc
  have := (List.dropWhile_suffix (fun c => c == '0')).subset hc
  exact hd c (List.mem_reverse.mp this)

theorem zeros_digits (k : Nat) (ds : List Char) (hd : ∀ c ∈ ds, c.isDigit = true) :
    ∀ c ∈ List.replicate k '0' ++ ds, c.isDigit = true := by
  intro c hc
  rcases List.mem_append.mp hc with h | h
  · rw [List.eq_of_mem_replicate h]; decide
  · exact hd c h

theorem take_succ_ne_nil (ds : List Char) (k : Nat) (h : ds ≠ []) : ds.take (k + 1) ≠ [] := by
  cases ds with
  | nil => exact absurd rfl h
  | cons c cs => simp

theorem fractionPart_strip (ds : List Char) :
    (if (stripZeros ds).isEmpty then [] else '.' :: stripZeros ds) =
      fractionPart (if (stripZeros ds).isEmpty then none else some (stripZeros ds)) := by
  split <;> rfl

theorem putMagnitude_token (n d : Nat) : IsFloatToken false (putMagnitude n d) := by
  unfold putMagnitude
  simp only
  generalize decExponent n d = e1
  generalize sixDigits n d e1 = m1
  generalize (if m1 = 1000000 then e1 + 1 else e1) = e
  generalize hds : putNat (if m1 = 1000000 then 100000 else m1) = ds
  have hd : ∀ c ∈ ds, c.isDigit = true := by
    intro c hc; rw [← hds] at hc; exact putNat_digits _ c hc
  have hne : ds ≠ [] := by rw [← hds]; exact putNat_ne_nil _
  split
  · refine ⟨ds.take 1,
      (if (stripZeros (ds.drop 1)).isEmpty then none else some (stripZeros (ds.drop 1))),
      some (decide (e < 0), List.replicate (2 - (putNat e.natAbs).length) '0' ++ putNat e.natAbs),
      ?_, ?_, take_succ_ne_nil ds 0 hne, ?_, ?_⟩
    · rw [fractionPart_strip]
      simp [floatToken, exponentPart, putExponent]
    · intro c hc; exact hd c (List.mem_of_mem_take hc)
    · intro f hf c hc
      split at hf
      · simp at hf
      · simp only [Option.some.injEq] at hf
        subst hf
        exact stripZeros_digits _ (fun x hx => hd x (List.mem_of_mem_drop hx)) c hc
    · intro ex hex
      simp only [Option.some.injEq] at hex
      subst hex
      refine ⟨zeros_digits _ _ (putNat_digits _), ?_⟩
      simp [putNat_ne_nil]
  · split
    · refine ⟨['0'],
        some (List.replicate ((-e).toNat - 1) '0' ++ stripZeros ds), none, ?_, ?_, ?_, ?_, ?_⟩
      · simp [floatToken, fractionPart, exponentPart]
      · intro c hc; simp only [List.mem_singleton] at hc; subst hc; decide
      · simp
      · intro f hf c hc
        simp only [Option.some.injEq] at hf
        subst hf
        exact zeros_digits _ _ (stripZeros_digits ds hd) c hc
      · intro ex hex; simp at hex
    · refine ⟨ds.take (e.toNat + 1),
        (if (stripZeros (ds.drop (e.toNat + 1))).isEmpty then none
         else some (stripZeros (ds.drop (e.toNat + 1)))), none,
        ?_, ?_, take_succ_ne_nil ds _ hne, ?_, ?_⟩
      · rw [fractionPart_strip]
        simp [floatToken, exponentPart]
      · intro c hc; exact hd c (List.mem_of_mem_take hc)
      · intro f hf c hc
        split at hf
        · simp at hf
        · simp only [Option.some.injEq] at hf
          subst hf
          exact stripZeros_digits _ (fun x hx => hd x (List.mem_of_mem_drop hx)) c hc
      · intro ex hex; simp at hex

theorem putDouble_token (a : ℚ) : IsFloatToken (decide (a < 0)) (putDouble a) := by
  unfold putDouble
  split
  · rename_i h0
    subst h0
    refine ⟨['0'], none, none, by simp [floatToken, fractionPart, exponentPart], ?_,
      by simp, by simp, by simp⟩
    intro c hc; simp only [List.mem_singleton] at hc; subst hc; decide
  · split
    · rename_i hlt
      obtain ⟨ip, fp, ex, htok, h1, h2, h3, h4⟩ := putMagnitude_token a.num.natAbs a.den
      exact ⟨ip, fp, ex, by rw [htok]; simp [floatToken, hlt], h1, h2, h3, h4⟩
    · rename_i hlt
      simp only [hlt, decide_False]
      exact putMagnitude_token _ _

theorem defaultFormat_readsBack (a : ℚ) : ReadsBack defaultFormat a (printedValue a) := by
  obtain ⟨ip, fp, ex, htok, h1, h2, h3, h4⟩ := putDouble_token a
  have hval : floatValue (putDouble a) = some (printedValue a) := by
    unfold printedValue
    rw [htok, floatValue_token _ ip fp ex h1 h2 h3 h4]
    rfl
  apply readsBack_of_token a (printedValue a) _ hval
  rw [htok]
  exact scanFloat_token _ ip fp ex h1 h2 h3 h4 []

/-! ## Lemmas on grouping with a given addition -/

/-- The model of `double` rounding on sample values: 0.1 becomes its nearest
`double`, 0.1 + 0.2 differs from the `double` of 0.3, a tie goes to the even
neighbour, and 1e16 absorbs 1. -/
theorem roundDouble_samples :
    roundDouble 0.1 = 3602879701896397 / 36028797018963968 ∧
    doubleAdd (roundDouble 0.1) (roundDouble 0.2) ≠ roundDouble 0.3 ∧
    roundDouble (2 ^ 53 + 1) = 2 ^ 53 ∧ roundDouble (2 ^ 53 + 3) = 2 ^ 53 + 4 ∧
    roundDouble 250.5 = 250.5 ∧ roundDouble 10000000000000000 = 10000000000000000 ∧
    doubleAdd 10000000000000000 1 = 10000000000000000 := by
  decide!


theorem addAtWith_exact (m : StdMap) (k : Category) (v : ℚ) :
    StdMap.addAtWith (fun a b => a + b) m k v = StdMap.addAt m k v := by
  induction m with
  | nil => rfl
  | cons e m ih =>
    obtain ⟨k', v'⟩ := e
    unfold StdMap.addAtWith StdMap.addAt
    rw [ih]

theorem groupFoldWith_exact (ts : List Transaction) (maps : StdMap × StdMap) :
    ts.foldl (groupStepWith (fun a b => a + b)) maps = ts.foldl groupStep maps := by
  induction ts generalizing maps with
  | nil => rfl
  | cons t ts ih =>
    rw [List.foldl_cons, List.foldl_cons, ih]
    congr 1
    unfold groupStepWith groupStep
    simp only [addAtWith_exact]

theorem keys_addAtWith (add : ℚ → ℚ → ℚ) (m : StdMap) (k : Category) (v : ℚ) (c : Category) :
    c ∈ StdMap.keys (StdMap.addAtWith add m k v) ↔ c = k ∨ c ∈ StdMap.keys m := by
  induction m with
  | nil => simp [StdMap.addAtWith, StdMap.keys]
  | cons e m ih =>
    obtain ⟨k', v'⟩ := e
    unfold StdMap.addAtWith
    split
    · simp [StdMap.keys]
    · split
      · rename_i h; subst h; simp [StdMap.keys]
      · simp only [StdMap.keys, List.map_cons, List.mem_cons] at ih ⊢
        rw [ih]; tauto

theorem sorted_addAtWith (add : ℚ → ℚ → ℚ) (m : StdMap) (k : Category) (v : ℚ)
    (h : (StdMap.keys m).Pairwise (· < ·)) :
    (StdMap.keys (StdMap.addAtWith add m k v)).Pairwise (· < ·) := by
  induction m with
  | nil => simp [StdMap.addAtWith, StdMap.keys]
  | cons e m ih =>
    obtain ⟨k', v'⟩ := e
    have h' := h
    simp only [StdMap.keys, List.map_cons, List.pairwise_cons] at h'
    unfold StdMap.addAtWith
    split
    · rename_i hlt
      simp only [StdMap.keys, List.map_cons, List.pairwise_cons, List.mem_cons]
      refine ⟨?_, h'.1, h'.2⟩
      rintro a (rfl | ha)
      · exact hlt
      · exact lt_trans hlt (h'.1 a ha)
    · split
      · simpa [StdMap.keys] using h'
      · rename_i h1 h2
        have hk : k' < k := lt_of_le_of_ne (not_lt.mp h1) (fun e => h2 e.symm)
        have ih' := ih h'.2
        simp only [StdMap.keys, List.map_cons, List.pairwise_cons]
        refine ⟨?_, ih'⟩
        intro a ha
        rcases (keys_addAtWith add m k v a).mp ha with rfl | ha'
        · exact hk
        · exact h'.1 a ha'

theorem groupFoldWith_sorted (add : ℚ → ℚ → ℚ) (ts : List Transaction) (maps : StdMap × StdMap)
    (h1 : (StdMap.keys maps.1).Pairwise (· < ·)) (h2 : (StdMap.keys maps.2).Pairwise (· < ·)) :
    (StdMap.keys (ts.foldl (groupStepWith add) maps).1).Pairwise (· < ·) ∧
      (StdMap.keys (ts.foldl (groupStepWith add) maps).2).Pairwise (· < ·) := by
  induction ts generalizing maps with
  | nil => exact ⟨h1, h2⟩
  | cons t ts ih =>
    rw [List.foldl_cons]
    apply ih
    · unfold groupStepWith; split
      · exact sorted_addAtWith add _ _ _ h1
      · exact h1
    · unfold groupStepWith; split
      · exact h2
      · exact sorted_addAtWith add _ _ _ h2

theorem find_none_of_lt (m : StdMap) (k : Category) (h : ∀ a ∈ StdMap.keys m, k < a) :
    StdMap.find m k = none := by
  induction m with
  | nil => rfl
  | cons e m ih =>
    obtain ⟨k', v'⟩ := e
    have hk : k < k' := h k' (by simp [StdMap.keys])
    have hne : ¬ k' = k := fun e => absurd (e ▸ hk) (lt_irrefl _)
    unfold StdMap.find
    rw [if_neg hne]
    exact ih (fun a ha => h a (by simp only [StdMap.keys, List.map_cons, List.mem_cons]; exact Or.inr ha))

theorem find_addAtWith (add : ℚ → ℚ → ℚ) (m : StdMap) (k : Category) (x : ℚ) (c : Category)
    (h : (StdMap.keys m).Pairwise (· < ·)) :
    StdMap.find (StdMap.addAtWith add m k x) c =
      if k = c then some (add ((StdMap.find m k).getD 0) x) else StdMap.find m c := by
  induction m with
  | nil =>
    by_cases hkc : k = c <;> simp [StdMap.addAtWith, StdMap.find, hkc]
  | cons e m ih =>
    obtain ⟨k', v'⟩ := e
    have h' := h
    simp only [StdMap.keys, List.map_cons, List.pairwise_cons] at h'
    unfold StdMap.addAtWith
    split
    · rename_i hlt
      have hnone : StdMap.find ((k', v') :: m) k = none := by
        apply find_none_of_lt
        intro a ha
        simp only [StdMap.keys, List.map_cons, List.mem_cons] at ha
        rcases ha with rfl | ha
        · exact hlt
        · exact lt_trans hlt (h'.1 a ha)
      rw [hnone]
      by_cases hkc : k = c
      · simp [StdMap.find, hkc]
      · rw [if_neg hkc]
        conv_lhs => unfold StdMap.find
        rw [if_neg hkc]
    · split
      · rename_i h1 h2
        subst h2
        by_cases hkc : k = c
        · simp [StdMap.find, hkc]
        · simp [StdMap.find, hkc]
      · rename_i h1 h2
        have hne : ¬ k' = k := fun e => h2 e.symm
        conv_lhs => unfold StdMap.find
        rw [ih h'.2]
        by_cases hkc : k = c
        · subst hkc
          simp [StdMap.find, hne]
        · by_cases hk'c : k' = c
          · simp [StdMap.find, hkc, hk'c]
          · simp [StdMap.find, hkc, hk'c]

theorem find_of_mem (m : StdMap) (h : (StdMap.keys m).Pairwise (· < ·)) (c : Category) (v : ℚ)
    (hm : (c, v) ∈ m) : StdMap.find m c = some v := by
  induction m with
  | nil => simp at hm
  | cons e m ih =>
    obtain ⟨k', v'⟩ := e
    simp only [StdMap.keys, List.map_cons, List.pairwise_cons] at h
    rcases List.mem_cons.mp hm with heq | hin
    · have h1 : k' = c := (Prod.mk.inj heq).1.symm
      have h2 : v' = v := (Prod.mk.inj heq).2.symm
      simp [StdMap.find, h1, h2]
    · have hlt : k' < c := h.1 c (List.mem_map_of_mem Prod.fst hin)
      have hne : ¬ k' = c := ne_of_lt hlt
      unfold StdMap.find
      rw [if_neg hne]
      exact ih h.2 hin

theorem find_isSome_iff (m : StdMap) (c : Category) :
    (StdMap.find m c).isSome = true ↔ c ∈ StdMap.keys m := by
  induction m with
  | nil => simp [StdMap.find, StdMap.keys]
  | cons e m ih =>
    obtain ⟨k', v'⟩ := e
    unfold StdMap.find
    by_cases hk : k' = c
    · simp [hk, StdMap.keys]
    · simp only [hk, if_false, ih, StdMap.keys, List.map_cons, List.mem_cons]
      constructor
      · exact Or.inr
      · rintro (h | h)
        · exact absurd h.symm hk
        · exact h

theorem accumulate_some (add : ℚ → ℚ → ℚ) (v : ℚ) (xs : List ℚ) :
    accumulate add (some v) xs = some (xs.foldl add v) := by
  induction xs generalizing v with
  | nil => rfl
  | cons a xs ih =>
    unfold accumulate at ih ⊢
    simp only [List.foldl_cons, Option.getD_some]
    exact ih (add v a)

theorem accumulate_none (add : ℚ → ℚ → ℚ) (xs : List ℚ) :
    accumulate add none xs = if xs = [] then none else some (xs.foldl add 0) := by
  cases xs with
  | nil => rfl
  | cons a xs =>
    have h := accumulate_some add (add 0 a) xs
    unfold accumulate at h ⊢
    simp only [List.foldl_cons, Option.getD_none, reduceCtorEq, if_false]
    exact h

theorem accumulate_cons (add : ℚ → ℚ → ℚ) (entry : Option ℚ) (a : ℚ) (xs : List ℚ) :
    accumulate add entry (a :: xs) = accumulate add (some (add (entry.getD 0) a)) xs := rfl

theorem groupFoldWith_find_income (add : ℚ → ℚ → ℚ) (ts : List Transaction)
    (maps : StdMap × StdMap) (c : Category)
    (h1 : (StdMap.keys maps.1).Pairwise (· < ·)) (h2 : (StdMap.keys maps.2).Pairwise (· < ·)) :
    StdMap.find (ts.foldl (groupStepWith add) maps).1 c =
      accumulate add (StdMap.find maps.1 c)
        ((ts.filter (fun t => decide (t.type = TransactionType.INCOME ∧ t.category = c))).map
          Transaction.amount) := by
  induction ts generalizing maps with
  | nil => rfl
  | cons t ts ih =>
    have hs := groupFoldWith_sorted add [t] maps h1 h2
    simp only [List.foldl_cons, List.foldl_nil] at hs
    rw [List.foldl_cons, ih _ hs.1 hs.2]
    unfold groupStepWith
    by_cases hi : t.type = TransactionType.INCOME
    · by_cases hc : t.category = c
      · subst hc
        simp [hi, find_addAtWith add _ _ _ _ h1, List.filter_cons, accumulate_cons]
      · simp [hi, hc, find_addAtWith add _ _ _ _ h1, List.filter_cons]
    · simp [hi, List.filter_cons]

theorem groupFoldWith_find_expense (add : ℚ → ℚ → ℚ) (ts : List Transaction)
    (maps : StdMap × StdMap) (c : Category)
    (h1 : (StdMap.keys maps.1).Pairwise (· < ·)) (h2 : (StdMap.keys maps.2).Pairwise (· < ·)) :
    StdMap.find (ts.foldl (groupStepWith add) maps).2 c =
      accumulate add (StdMap.find maps.2 c)
        ((ts.filter (fun t => decide (t.type ≠ TransactionType.INCOME ∧ t.category = c))).map
          Transaction.amount) := by
  induction ts generalizing maps with
  | nil => rfl
  | cons t ts ih =>
    have hs := groupFoldWith_sorted add [t] maps h1 h2
    simp only [List.foldl_cons, List.foldl_nil] at hs
    rw [List.foldl_cons, ih _ hs.1 hs.2]
    unfold groupStepWith
    by_cases hi : t.type = TransactionType.INCOME
    · simp [hi, List.filter_cons]
    · by_cases hc : t.category = c
      · subst hc
        simp [hi, find_addAtWith add _ _ _ _ h2, List.filter_cons, accumulate_cons]
      · simp [hi, hc, find_addAtWith add _ _ _ _ h2, List.filter_cons]

theorem filter_ne_nil_iff (ts : List Transaction) (p : Transaction → Prop) [DecidablePred p] :
    (ts.filter (fun t => decide (p t))).map Transaction.amount ≠ [] ↔ ∃ t ∈ ts, p t := by
  induction ts with
  | nil => simp
  | cons t ts ih =>
    by_cases h : p t
    · simp [List.filter_cons, h]
    · simp only [List.filter_cons, h, decide_False, Bool.false_eq_true, if_false, ih,
        List.mem_cons, exists_eq_or_imp, false_or]

theorem reportMaps_of_ne_nil (add : ℚ → ℚ → ℚ) (m : FinanceManager) (h : m.transactions ≠ []) :
    m.reportMaps add = some (groupByCategoryWith add m.transactions) := by
  unfold FinanceManager.reportMaps
  have : m.transactions.isEmpty = false := by
    cases hm : m.transactions with
    | nil => exact absurd hm h
    | cons _ _ => rfl
  simp [this]

theorem reportMaps_exact (m : FinanceManager) :
    m.reportMaps (fun a b => a + b) =
      m.generateCategoryReport.map (fun r => (r.incomeByCategory, r.expenseByCategory)) := by
  unfold FinanceManager.reportMaps FinanceManager.generateCategoryReport groupByCategoryWith
    groupByCategory
  split
  · rfl
  · simp [groupFoldWith_exact]

theorem reportMaps_spec (add : ℚ → ℚ → ℚ) (m : FinanceManager) (h : m.transactions ≠ []) :
    ∃ maps, m.reportMaps add = some maps ∧
      (∀ c : Category,
        (c ∈ maps.1.map Prod.fst ↔
          ∃ t ∈ m.transactions, t.type = TransactionType.INCOME ∧ t.category = c) ∧
        (c ∈ maps.2.map Prod.fst ↔
          ∃ t ∈ m.transactions, t.type ≠ TransactionType.INCOME ∧ t.category = c)) ∧
      (maps.1.map Prod.fst).Nodup ∧ (maps.2.map Prod.fst).Nodup ∧
      (∀ (c : Category) (v : ℚ), (c, v) ∈ maps.1 →
        v = ((m.transactions.filter
              (fun t => decide (t.type = TransactionType.INCOME ∧ t.category = c))).map
              Transaction.amount).foldl add 0) ∧
      (∀ (c : Category) (v : ℚ), (c, v) ∈ maps.2 →
        v = ((m.transactions.filter
              (fun t => decide (t.type ≠ TransactionType.INCOME ∧ t.category = c))).map
              Transaction.amount).foldl add 0) := by
  refine ⟨_, reportMaps_of_ne_nil add m h, ?_⟩
  have hs := groupFoldWith_sorted add m.transactions ([], []) (by simp [StdMap.keys])
    (by simp [StdMap.keys])
  have hfi := fun c => groupFoldWith_find_income add m.transactions ([], []) c
    (by simp [StdMap.keys]) (by simp [StdMap.keys])
  have hfe := fun c => groupFoldWith_find_expense add m.transactions ([], []) c
    (by simp [StdMap.keys]) (by simp [StdMap.keys])
  simp only [StdMap.find, accumulate_none] at hfi hfe
  refine ⟨?_, hs.1.imp (fun hab => ne_of_lt hab), hs.2.imp (fun hab => ne_of_lt hab), ?_, ?_⟩
  · intro c
    constructor
    · rw [← filter_ne_nil_iff]
      have := find_isSome_iff (groupByCategoryWith add m.transactions).1 c
      unfold groupByCategoryWith StdMap.keys at this
      unfold groupByCategoryWith
      rw [← this, hfi c]
      split <;> simp_all
    · rw [← filter_ne_nil_iff]
      have := find_isSome_iff (groupByCategoryWith add m.transactions).2 c
      unfold groupByCategoryWith StdMap.keys at this
      unfold groupByCategoryWith
      rw [← this, hfe c]
      split <;> simp_all
  · intro c v hv
    have h1 := find_of_mem _ hs.1 c v hv
    rw [hfi c] at h1
    split at h1
    · simp at h1
    · simpa using h1.symm
  · intro c v hv
    have h1 := find_of_mem _ hs.2 c v hv
    rw [hfe c] at h1
    split at h1
    · simp at h1
    · simpa using h1.symm

/-- With amounts taken as exact numbers, the keys of the two maps of a report
are the categories that occur with the type, and each value is the sum of the
matching amounts. -/
theorem report_maps_exact (m : FinanceManager) (h : m.transactions ≠ []) :
    ∃ r, m.generateCategoryReport = some r ∧
      (∀ c : Category,
        (c ∈ r.incomeByCategory.map Prod.fst ↔
          ∃ t ∈ m.transactions, t.type = TransactionType.INCOME ∧ t.category = c) ∧
        (c ∈ r.expenseByCategory.map Prod.fst ↔
          ∃ t ∈ m.transactions, t.type ≠ TransactionType.INCOME ∧ t.category = c)) ∧
      (r.incomeByCategory.map Prod.fst).Nodup ∧ (r.expenseByCategory.map Prod.fst).Nodup ∧
      (∀ (c : Category) (v : ℚ), (c, v) ∈ r.incomeByCategory →
        v = ((m.transactions.filter
              (fun t => decide (t.type = TransactionType.INCOME ∧ t.category = c))).map
              Transaction.amount).sum) ∧
      (∀ (c : Category) (v : ℚ), (c, v) ∈ r.expenseByCategory →
        v = ((m.transactions.filter
              (fun t => decide (t.type ≠ TransactionType.INCOME ∧ t.category = c))).map
              Transaction.amount).sum) ∧
      (∀ c : Category, (c, (0 : ℚ)) ∈ r.incomeByCategory →
        ((m.transactions.filter
              (fun t => decide (t.type = TransactionType.INCOME ∧ t.category = c))).map
              Transaction.amount).sum = 0) ∧
      (∀ c : Category, (c, (0 : ℚ)) ∈ r.expenseByCategory →
        ((m.transactions.filter
              (fun t => decide (t.type ≠ TransactionType.INCOME ∧ t.category = c))).map
              Transaction.amount).sum = 0) := by
  refine ⟨_, report_of_ne_nil m h, ?_⟩
  have hs := groupFold_sorted m.transactions ([], []) (by simp [StdMap.keys])
    (by simp [StdMap.keys])
  have hinc : ∀ (c : Category) (v : ℚ), (c, v) ∈ (groupByCategory m.transactions).1 →
      v = ((m.transactions.filter
              (fun t => decide (t.type = TransactionType.INCOME ∧ t.category = c))).map
              Transaction.amount).sum := by
    intro c v hv
    have h1 := valueAt_of_mem _ hs.1 c v hv
    have h2 := groupFold_valueAt_income m.transactions ([], []) c
    rw [h1] at h2
    rw [h2]
    simp [StdMap.valueAt, amountOf, isIncome, Bool.decide_and]
  have hexp : ∀ (c : Category) (v : ℚ), (c, v) ∈ (groupByCategory m.transactions).2 →
      v = ((m.transactions.filter
              (fun t => decide (t.type ≠ TransactionType.INCOME ∧ t.category = c))).map
              Transaction.amount).sum := by
    intro c v hv
    have h1 := valueAt_of_mem _ hs.2 c v hv
    have h2 := groupFold_valueAt_expense m.transactions ([], []) c
    rw [h1] at h2
    rw [h2]
    simp [StdMap.valueAt, amountOf, isIncome, Bool.decide_and]
  refine ⟨?_, ?_, ?_, hinc, hexp, ?_, ?_⟩
  · intro c
    have h1 := groupFold_keys_income m.transactions ([], []) c
    have h2 := groupFold_keys_expense m.transactions ([], []) c
    simp only [StdMap.keys, List.map_nil, List.not_mem_nil, false_or] at h1 h2
    exact ⟨h1, h2⟩
  · exact hs.1.imp (fun hab => ne_of_lt hab)
  · exact hs.2.imp (fun hab => ne_of_lt hab)
  · intro c hc
    exact (hinc c 0 hc).symm
  · intro c hc
    exact (hexp c 0 hc).symm

/-! ## The claims -/

/-- C1: `calculateBalance` returns the sum over all transactions of `+amount`
for an INCOME transaction and `-amount` otherwise; it returns 0 on the empty
ledger and 709.50 on the example ledger. -/
theorem calculateBalance_eq_signed_sum :
    (∀ m : FinanceManager, m.calculateBalance =
      (m.transactions.map
        (fun t => if t.type = TransactionType.INCOME then t.amount else -t.amount)).sum) ∧
    (∀ name : List Char, (FinanceManager.new name).calculateBalance = 0) ∧
    (∀ name : List Char,
      (FinanceManager.mk exampleTransactions name).calculateBalance = 709.5) := by
  have key : ∀ m : FinanceManager, m.calculateBalance =
      (m.transactions.map
        (fun t => if t.type = TransactionType.INCOME then t.amount else -t.amount)).sum := by
    intro m
    unfold FinanceManager.calculateBalance
    rw [foldl_balanceStep, zero_add]
    rfl
  refine ⟨key, ?_, ?_⟩
  · intro name
    rfl
  · intro name
    rw [key]
    norm_num [exampleTransactions]

/-- C2: the balance equals `totalIncome - totalExpense`, the totals being the
sums of the values of the two per-category maps built from the same list; a
report is printed for every non-empty ledger and carries exactly these totals. -/
theorem calculateBalance_eq_report_totals (m : FinanceManager) :
    m.calculateBalance =
      ((groupByCategory m.transactions).1.map Prod.snd).sum -
        ((groupByCategory m.transactions).2.map Prod.snd).sum ∧
    (m.transactions ≠ [] → ∃ r, m.generateCategoryReport = some r) ∧
    (∀ r, m.generateCategoryReport = some r →
      r.incomeByCategory = (groupByCategory m.transactions).1 ∧
      r.expenseByCategory = (groupByCategory m.transactions).2 ∧
      r.totalIncome = (r.incomeByCategory.map Prod.snd).sum ∧
      r.totalExpense = (r.expenseByCategory.map Prod.snd).sum ∧
      r.balance = r.totalIncome - r.totalExpense ∧
      m.calculateBalance = r.totalIncome - r.totalExpense) := by
  have key : m.calculateBalance =
      ((groupByCategory m.transactions).1.map Prod.snd).sum -
        ((groupByCategory m.transactions).2.map Prod.snd).sum := by
    have h := groupFold_totals m.transactions ([], [])
    unfold FinanceManager.calculateBalance groupByCategory
    rw [foldl_balanceStep, ← total_eq_sum, ← total_eq_sum, h]
    simp [StdMap.total]
  refine ⟨key, ?_, ?_⟩
  · intro h
    exact ⟨_, report_of_ne_nil m h⟩
  · intro r hr
    by_cases h : m.transactions = []
    · simp [FinanceManager.generateCategoryReport, h] at hr
    · rw [report_of_ne_nil m h] at hr
      cases hr
      refine ⟨rfl, rfl, total_eq_sum _, total_eq_sum _, rfl, ?_⟩
      simp only [total_eq_sum]
      exact key

/-- Witness for C2 on the example ledger: the report carries the totals
1000.00 and 290.50, and the balance is their difference. -/
theorem calculateBalance_eq_report_totals_witness :
    exampleLedger.transactions ≠ [] ∧
    exampleLedger.generateCategoryReport =
      some { incomeByCategory := [(Category.SALARY, 1000)], totalIncome := 1000,
             expenseByCategory := [(Category.FOOD, 250.5), (Category.TRANSPORT, 40)],
             totalExpense := 290.5, balance := 709.5 } ∧
    ∃ r, exampleLedger.generateCategoryReport = some r ∧
      exampleLedger.calculateBalance = r.totalIncome - r.totalExpense :=
  have hne : exampleLedger.transactions ≠ [] := by decide
  ⟨hne, by decide!,
    ((calculateBalance_eq_report_totals exampleLedger).2.1 hne).elim
      (fun r hr => ⟨r, hr, ((calculateBalance_eq_report_totals exampleLedger).2.2 r hr).2.2.2.2.2⟩)⟩

/-- C4: `addTransaction` keeps the display name and appends exactly one
transaction carrying the five argument values; a sequence of calls on an empty
ledger stores the arguments in call order, one transaction per call. -/
theorem addTransaction_appends :
    (∀ (m : FinanceManager) (type : TransactionType) (amount : ℚ) (description : List Char)
        (category : Category) (date : Int),
      (m.addTransaction type amount description category date).username = m.username ∧
      (m.addTransaction type amount description category date).transactions =
        m.transactions ++ [⟨type, amount, description, category, date⟩]) ∧
    (∀ (name : List Char) (calls : List (TransactionType × ℚ × List Char × Category × Int)),
      (calls.foldl (fun m a => m.addTransaction a.1 a.2.1 a.2.2.1 a.2.2.2.1 a.2.2.2.2)
          (FinanceManager.new name)).transactions =
        calls.map (fun a => ⟨a.1, a.2.1, a.2.2.1, a.2.2.2.1, a.2.2.2.2⟩) ∧
      (calls.foldl (fun m a => m.addTransaction a.1 a.2.1 a.2.2.1 a.2.2.2.1 a.2.2.2.2)
          (FinanceManager.new name)).transactions.length = calls.length ∧
      (calls.foldl (fun m a => m.addTransaction a.1 a.2.1 a.2.2.1 a.2.2.2.1 a.2.2.2.2)
          (FinanceManager.new name)).username = name) := by
  refine ⟨fun m type amount description category date => ⟨rfl, rfl⟩, ?_⟩
  intro name calls
  have gen : ∀ (cs : List (TransactionType × ℚ × List Char × Category × Int))
      (m : FinanceManager),
      (cs.foldl (fun m a => m.addTransaction a.1 a.2.1 a.2.2.1 a.2.2.2.1 a.2.2.2.2) m) =
        { transactions := m.transactions ++
            cs.map (fun a => ⟨a.1, a.2.1, a.2.2.1, a.2.2.2.1, a.2.2.2.2⟩),
          username := m.username } := by
    intro cs
    induction cs with
    | nil => intro m; simp
    | cons a cs ih =>
      intro m
      rw [List.foldl_cons, ih]
      simp [FinanceManager.addTransaction]
  rw [gen]
  simp [FinanceManager.new]

/-- Counterexample for C5: on three Salary incomes 1e16, 1 and -1e16, each a
`double`, the income map built in `double` arithmetic holds Salary with value
0, while the amounts of these transactions sum to 1. -/
theorem report_maps_counterexample :
    (∀ t ∈ absorbingTransactions, roundDouble t.amount = t.amount) ∧
    (FinanceManager.mk absorbingTransactions []).reportMaps doubleAdd =
      some ([(Category.SALARY, 0)], []) ∧
    ((absorbingTransactions.filter
        (fun t => decide (t.type = TransactionType.INCOME ∧ t.category = Category.SALARY))).map
        Transaction.amount).sum = 1 := by
  decide!

/-- C5 (amended): for a non-empty ledger a category is a key of
`incomeByCategory` exactly when some INCOME transaction has it, no key is
repeated, and its value is the result of adding the amounts of those
transactions to 0 one after another, in list order, in `double` arithmetic;
likewise for `expenseByCategory` and the transactions that are not INCOME.
With amounts taken as exact numbers the value is the sum of those amounts, and
it is 0 only when that sum is 0. -/
theorem report_maps_accumulated (m : FinanceManager) (h : m.transactions ≠ []) :
    (∃ maps, m.reportMaps doubleAdd = some maps ∧
      (∀ c : Category,
        (c ∈ maps.1.map Prod.fst ↔
          ∃ t ∈ m.transactions, t.type = TransactionType.INCOME ∧ t.category = c) ∧
        (c ∈ maps.2.map Prod.fst ↔
          ∃ t ∈ m.transactions, t.type ≠ TransactionType.INCOME ∧ t.category = c)) ∧
      (maps.1.map Prod.fst).Nodup ∧ (maps.2.map Prod.fst).Nodup ∧
      (∀ (c : Category) (v : ℚ), (c, v) ∈ maps.1 →
        v = ((m.transactions.filter
              (fun t => decide (t.type = TransactionType.INCOME ∧ t.category = c))).map
              Transaction.amount).foldl doubleAdd 0) ∧
      (∀ (c : Category) (v : ℚ), (c, v) ∈ maps.2 →
        v = ((m.transactions.filter
              (fun t => decide (t.type ≠ TransactionType.INCOME ∧ t.category = c))).map
              Transaction.amount).foldl doubleAdd 0)) ∧
    (∃ r, m.generateCategoryReport = some r ∧
      m.reportMaps (fun a b => a + b) = some (r.incomeByCategory, r.expenseByCategory) ∧
      (∀ c : Category,
        (c ∈ r.incomeByCategory.map Prod.fst ↔
          ∃ t ∈ m.transactions, t.type = TransactionType.INCOME ∧ t.category = c) ∧
        (c ∈ r.expenseByCategory.map Prod.fst ↔
          ∃ t ∈ m.transactions, t.type ≠ TransactionType.INCOME ∧ t.category = c)) ∧
      (r.incomeByCategory.map Prod.fst).Nodup ∧ (r.expenseByCategory.map Prod.fst).Nodup ∧
      (∀ (c : Category) (v : ℚ), (c, v) ∈ r.incomeByCategory →
        v = ((m.transactions.filter
              (fun t => decide (t.type = TransactionType.INCOME ∧ t.category = c))).map
              Transaction.amount).sum) ∧
      (∀ (c : Category) (v : ℚ), (c, v) ∈ r.expenseByCategory →
        v = ((m.transactions.filter
              (fun t => decide (t.type ≠ TransactionType.INCOME ∧ t.category = c))).map
              Transaction.amount).sum) ∧
      (∀ c : Category, (c, (0 : ℚ)) ∈ r.incomeByCategory →
        ((m.transactions.filter
              (fun t => decide (t.type = TransactionType.INCOME ∧ t.category = c))).map
              Transaction.amount).sum = 0) ∧
      (∀ c : Category, (c, (0 : ℚ)) ∈ r.expenseByCategory →
        ((m.transactions.filter
              (fun t => decide (t.type ≠ TransactionType.INCOME ∧ t.category = c))).map
              Transaction.amount).sum = 0)) := by
  refine ⟨reportMaps_spec doubleAdd m h, ?_⟩
  obtain ⟨r, hr, hrest⟩ := report_maps_exact m h
  refine ⟨r, hr, ?_, hrest⟩
  rw [reportMaps_exact, hr]
  rfl

/-- Witness for C5 (amended): the ledger of the three Salary incomes has the
one income key Salary, whose value is 1e16 + 1 - 1e16 computed in `double`
arithmetic from left to right, that is 0. -/
theorem report_maps_accumulated_witness :
    (FinanceManager.mk absorbingTransactions []).transactions ≠ [] ∧
    ∃ maps, (FinanceManager.mk absorbingTransactions []).reportMaps doubleAdd = some maps ∧
      (Category.SALARY ∈ maps.1.map Prod.fst ↔
        ∃ t ∈ absorbingTransactions, t.type = TransactionType.INCOME ∧
          t.category = Category.SALARY) ∧
      (∀ v : ℚ, (Category.SALARY, v) ∈ maps.1 →
        v = ((absorbingTransactions.filter
              (fun t => decide (t.type = TransactionType.INCOME ∧
                t.category = Category.SALARY))).map Transaction.amount).foldl doubleAdd 0) ∧
      ((absorbingTransactions.filter
          (fun t => decide (t.type = TransactionType.INCOME ∧
            t.category = Category.SALARY))).map Transaction.amount).foldl doubleAdd 0 = 0 :=
  have hne : (FinanceManager.mk absorbingTransactions []).transactions ≠ [] := by decide
  ⟨hne, (report_maps_accumulated (FinanceManager.mk absorbingTransactions []) hne).1.elim
    (fun maps hm => ⟨maps, hm.1, (hm.2.1 Category.SALARY).1,
      fun v hv => hm.2.2.2.2.1 Category.SALARY v hv, by decide!⟩)⟩

/-- C8: the income lines and the expense lines of a report are in strictly
increasing order of the category ordinal (Food < Transport < Housing <
Entertainment < Utilities < Salary < Gift < Other), without repetition, and
ledgers that are permutations of each other print the same category order. -/
theorem report_lines_sorted (m : FinanceManager) :
    (Category.FOOD < Category.TRANSPORT ∧ Category.TRANSPORT < Category.HOUSING ∧
      Category.HOUSING < Category.ENTERTAINMENT ∧ Category.ENTERTAINMENT < Category.UTILITIES ∧
      Category.UTILITIES < Category.SALARY ∧ Category.SALARY < Category.GIFT ∧
      Category.GIFT < Category.OTHER) ∧
    (incomeLines m.generateCategoryReport).Pairwise (· < ·) ∧
    (expenseLines m.generateCategoryReport).Pairwise (· < ·) ∧
    (incomeLines m.generateCategoryReport).Nodup ∧
    (expenseLines m.generateCategoryReport).Nodup ∧
    (∀ m' : FinanceManager, m.transactions.Perm m'.transactions →
      incomeLines m.generateCategoryReport = incomeLines m'.generateCategoryReport ∧
      expenseLines m.generateCategoryReport = expenseLines m'.generateCategoryReport) := by
  have sorted : ∀ m : FinanceManager,
      (incomeLines m.generateCategoryReport).Pairwise (· < ·) ∧
      (expenseLines m.generateCategoryReport).Pairwise (· < ·) := by
    intro m
    by_cases h : m.transactions = []
    · simp [FinanceManager.generateCategoryReport, h, incomeLines, expenseLines]
    · rw [report_of_ne_nil m h]
      exact groupFold_sorted m.transactions ([], []) (by simp [StdMap.keys])
        (by simp [StdMap.keys])
  have mem : ∀ (m : FinanceManager) (c : Category),
      (c ∈ incomeLines m.generateCategoryReport ↔
        ∃ t ∈ m.transactions, t.type = TransactionType.INCOME ∧ t.category = c) ∧
      (c ∈ expenseLines m.generateCategoryReport ↔
        ∃ t ∈ m.transactions, t.type ≠ TransactionType.INCOME ∧ t.category = c) := by
    intro m c
    by_cases h : m.transactions = []
    · simp [FinanceManager.generateCategoryReport, h, incomeLines, expenseLines]
    · rw [report_of_ne_nil m h]
      have h1 := groupFold_keys_income m.transactions ([], []) c
      have h2 := groupFold_keys_expense m.transactions ([], []) c
      simp only [StdMap.keys, List.map_nil, List.not_mem_nil, false_or] at h1 h2
      exact ⟨h1, h2⟩
  refine ⟨by decide, (sorted m).1, (sorted m).2, (sorted m).1.imp (fun hab => ne_of_lt hab),
    (sorted m).2.imp (fun hab => ne_of_lt hab), ?_⟩
  intro m' hp
  constructor
  · apply sorted_keys_eq _ _ (sorted m).1 (sorted m').1
    intro c
    rw [(mem m c).1, (mem m' c).1]
    constructor
    · rintro ⟨t, ht, h⟩; exact ⟨t, hp.mem_iff.mp ht, h⟩
    · rintro ⟨t, ht, h⟩; exact ⟨t, hp.mem_iff.mpr ht, h⟩
  · apply sorted_keys_eq _ _ (sorted m).2 (sorted m').2
    intro c
    rw [(mem m c).2, (mem m' c).2]
    constructor
    · rintro ⟨t, ht, h⟩; exact ⟨t, hp.mem_iff.mp ht, h⟩
    · rintro ⟨t, ht, h⟩; exact ⟨t, hp.mem_iff.mpr ht, h⟩

/-- Witness for C8: the example ledger and its reversal print the same order. -/
theorem report_lines_sorted_witness :
    exampleTransactions.Perm exampleTransactions.reverse ∧
    incomeLines (FinanceManager.mk exampleTransactions []).generateCategoryReport =
      incomeLines (FinanceManager.mk exampleTransactions.reverse []).generateCategoryReport ∧
    expenseLines (FinanceManager.mk exampleTransactions []).generateCategoryReport =
      expenseLines (FinanceManager.mk exampleTransactions.reverse []).generateCategoryReport :=
  ⟨(List.reverse_perm exampleTransactions).symm,
    (report_lines_sorted (FinanceManager.mk exampleTransactions [])).2.2.2.2.2
      (FinanceManager.mk exampleTransactions.reverse [])
      (List.reverse_perm exampleTransactions).symm⟩

/-- C9: `categoryToString` returns a non-empty string for each of the eight
ordinals 0..7, these strings are pairwise distinct, and every other ordinal
yields the fallback string, which differs from all eight. -/
theorem categoryToString_total :
    (∀ c : Category, 0 ≤ c → c ≤ 7 → categoryToString c ≠ "") ∧
    (∀ c d : Category, 0 ≤ c → c ≤ 7 → 0 ≤ d → d ≤ 7 →
      categoryToString c = categoryToString d → c = d) ∧
    (∀ c : Category, c < 0 ∨ 7 < c → categoryToString c = "Неизвестно") ∧
    (∀ c : Category, 0 ≤ c → c ≤ 7 → categoryToString c ≠ "Неизвестно") := by
  refine ⟨?_, ?_, ?_, ?_⟩
  · intro c h0 h7
    interval_cases c <;> decide
  · intro c d hc0 hc7 hd0 hd7
    interval_cases c <;> interval_cases d <;> decide
  · have aux : ∀ c : Int, c < 0 ∨ 7 < c → categoryToString c = "Неизвестно" := ?_
    · exact aux
    intro c hc
    unfold categoryToString
    have h0 : ¬ c = 0 := by omega
    have h1 : ¬ c = 1 := by omega
    have h2 : ¬ c = 2 := by omega
    have h3 : ¬ c = 3 := by omega
    have h4 : ¬ c = 4 := by omega
    have h5 : ¬ c = 5 := by omega
    have h6 : ¬ c = 6 := by omega
    have h7 : ¬ c = 7 := by omega
    simp [h0, h1, h2, h3, h4, h5, h6, h7]
  · intro c h0 h7
    interval_cases c <;> decide

/-- Witness for C9 at the ordinals 5 and 9. -/
theorem categoryToString_total_witness :
    categoryToString 5 ≠ "" ∧ categoryToString 9 = "Неизвестно" ∧
      categoryToString 5 ≠ "Неизвестно" :=
  ⟨categoryToString_total.1 5 (by decide) (by decide),
    categoryToString_total.2.2.1 9 (Or.inr (by decide)),
    categoryToString_total.2.2.2 5 (by decide) (by decide)⟩

/-- C3: round trip.  For a ledger without newline in its display name and its
descriptions, `saveToFile` succeeds and `loadFromFile` of the written text into
a fresh ledger returns success and yields the same display name and the same
transactions in the same order, equal in type, category, timestamp and
description, the amount being the value read back from its printed form: for
every text form of amounts that is read back, and in particular for the default
one, where every amount is read back as `printedValue amount`. -/
theorem save_load_roundtrip (u : Uninit) (m : FinanceManager) (fresh : List Char)
    (hname : '\n' ∉ m.username) (hdesc : ∀ t ∈ m.transactions, '\n' ∉ t.description)
    (hrange : ∀ t ∈ m.transactions, t.InRange) (hsize : m.transactions.length < 2 ^ 64) :
    (∀ (F : AmountFormat) (r : ℚ → ℚ),
      (∀ t ∈ m.transactions, ReadsBack F t.amount (r t.amount)) →
      (m.saveToFile F true).1 = true ∧
      (FinanceManager.new fresh).loadFromFile F u (m.saveToFile F true).2 =
        (true, { transactions := m.transactions.map (fun t => { t with amount := r t.amount }),
                 username := m.username })) ∧
    (m.saveToFile defaultFormat true).1 = true ∧
    (FinanceManager.new fresh).loadFromFile defaultFormat u (m.saveToFile defaultFormat true).2 =
      (true, { transactions :=
                 m.transactions.map (fun t => { t with amount := printedValue t.amount }),
               username := m.username }) ∧
    ((FinanceManager.new fresh).loadFromFile defaultFormat u
      (m.saveToFile defaultFormat true).2).2.transactions.length = m.transactions.length := by
  have gen : ∀ (F : AmountFormat) (r : ℚ → ℚ),
      (∀ t ∈ m.transactions, ReadsBack F t.amount (r t.amount)) →
      (m.saveToFile F true).1 = true ∧
      (FinanceManager.new fresh).loadFromFile F u (m.saveToFile F true).2 =
        (true, { transactions := m.transactions.map (fun t => { t with amount := r t.amount }),
                 username := m.username }) := by
    intro F r hamount
    have hsave : m.saveToFile F true = (true, some (m.fileText F)) := rfl
    rw [hsave]
    exact ⟨rfl, load_fileText F u r m (FinanceManager.new fresh) hname hdesc hrange hsize hamount⟩
  have hdef := gen defaultFormat printedValue (fun t _ => defaultFormat_readsBack t.amount)
  refine ⟨gen, hdef.1, hdef.2, ?_⟩
  rw [hdef.2]
  simp

/-- Witness for C3: the ledger "Alex" with the three example transactions is
reloaded as it was, with three transactions and balance 709.50; its amounts
are printed as `1000`, `250.5` and `40` and read back unchanged. -/
theorem save_load_roundtrip_witness :
    (FinanceManager.new []).loadFromFile defaultFormat zeroUninit
        (exampleLedger.saveToFile defaultFormat true).2 = (true, exampleLedger) ∧
    ((FinanceManager.new []).loadFromFile defaultFormat zeroUninit
        (exampleLedger.saveToFile defaultFormat true).2).2.transactions.length = 3 ∧
    ((FinanceManager.new []).loadFromFile defaultFormat zeroUninit
        (exampleLedger.saveToFile defaultFormat true).2).2.calculateBalance = 709.5 ∧
    exampleLedger.transactions.map (fun t => putDouble t.amount) =
      ["1000".toList, "250.5".toList, "40".toList] ∧
    exampleLedger.transactions.map (fun t => printedValue t.amount) = [1000, 250.5, 40] := by
  have hgen := (save_load_roundtrip zeroUninit exampleLedger []
    (by decide) (by decide) (by decide) (by decide)).1 defaultFormat id
    (by
      intro t ht
      simp only [exampleLedger, exampleTransactions, List.mem_cons, List.mem_singleton,
        List.not_mem_nil, or_false] at ht
      rcases ht with rfl | rfl | rfl
      · exact readsBack_of_token _ _ (by decide!) (by decide!)
      · exact readsBack_of_token _ _ (by decide!) (by decide!)
      · exact readsBack_of_token _ _ (by decide!) (by decide!))
  have h := hgen.2
  have hm : FinanceManager.mk
      (exampleLedger.transactions.map (fun t => { t with amount := id t.amount }))
      exampleLedger.username = exampleLedger := by
    decide!
  rw [hm] at h
  refine ⟨h, ?_, ?_, by decide!, by decide!⟩
  · rw [h]; rfl
  · rw [h]
    norm_num [exampleLedger, exampleTransactions, FinanceManager.calculateBalance, balanceStep]

/-- Counterexample for C6: a file that declares two transactions and holds one
line is loaded with success, and the ledger holds two transactions, the second
one built without data. -/
theorem load_short_file_counterexample :
    ((FinanceManager.new []).loadFromFile defaultFormat zeroUninit
        (some "A\n2\n0 5 1 3 x\n".toList)).1 ≠ false ∧
    ((FinanceManager.new []).loadFromFile defaultFormat zeroUninit
        (some "A\n2\n0 5 1 3 x\n".toList)).2 =
      { transactions := [⟨0, 5, ['x'], 1, 3⟩, ⟨0, 0, [], 0, 0⟩], username := ['A'] } := by
  decide!

/-- C6 (amended): `loadFromFile` does not check the format.  For a file whose
second line declares `N` transactions, whatever follows, it returns success
and leaves exactly `N` transactions; when the file holds fewer than `N`
transaction lines, these are the parsed lines followed by transactions built
from the uninitialised locals and the empty description. -/
theorem load_short_file (F : AmountFormat) (u : Uninit) (r : ℚ → ℚ) (prior : FinanceManager)
    (name : List Char) (N : Nat) (hname : '\n' ∉ name) (hN : N < 2 ^ 64) :
    (∀ body : List Char,
      (prior.loadFromFile F u (some (name ++ '\n' :: (putNat N ++ '\n' :: body)))).1 = true ∧
      (prior.loadFromFile F u (some (name ++ '\n' :: (putNat N ++ '\n' :: body)))).2.username =
        name ∧
      (prior.loadFromFile F u
        (some (name ++ '\n' :: (putNat N ++ '\n' :: body)))).2.transactions.length = N) ∧
    (∀ rows : List Transaction, rows.length < N →
      (∀ t ∈ rows, '\n' ∉ t.description) → (∀ t ∈ rows, t.InRange) →
      (∀ t ∈ rows, ReadsBack F t.amount (r t.amount)) →
      prior.loadFromFile F u
          (some (name ++ '\n' :: (putNat N ++ '\n' ::
            (rows.map (Transaction.saveToFile F)).flatten))) =
        (true, { transactions := rows.map (fun t => { t with amount := r t.amount }) ++
                   (List.range' rows.length (N - rows.length)).map u.row,
                 username := name })) := by
  constructor
  · intro body
    unfold FinanceManager.loadFromFile
    simp only [IStream.ofContent]
    rw [getline_line _ _ _ hname]
    simp only
    rw [extractSize_putNat _ hN, ignore_cons]
    simp [loadLoop_length]
  · intro rows hlt hdesc hrange hamount
    have hk : N = rows.length + (N - rows.length) := by omega
    have h := load_lines F u r prior name rows (N - rows.length) hname hdesc hrange
      (by omega) hamount
    rw [← hk] at h
    exact h

/-- Witness for C6 (amended): a file that declares two transactions and holds
the line of one is loaded with success as that transaction followed by one
built from the uninitialised locals. -/
theorem load_short_file_witness :
    ((FinanceManager.new []).loadFromFile defaultFormat zeroUninit
        (some (['A'] ++ '\n' :: (putNat 2 ++ '\n' :: "0 5 1 3 x\n".toList)))).1 = true ∧
    ((FinanceManager.new []).loadFromFile defaultFormat zeroUninit
        (some (['A'] ++ '\n' :: (putNat 2 ++ '\n' :: "0 5 1 3 x\n".toList)))).2.transactions.length
      = 2 ∧
    (FinanceManager.new []).loadFromFile defaultFormat zeroUninit
        (some (['A'] ++ '\n' :: (putNat 2 ++ '\n' ::
          ([Transaction.mk 0 5 ['x'] 1 3].map (Transaction.saveToFile defaultFormat)).flatten))) =
      (true, { transactions :=
                 [Transaction.mk 0 5 ['x'] 1 3].map (fun t => { t with amount := id t.amount }) ++
                   (List.range' [Transaction.mk 0 5 ['x'] 1 3].length
                     (2 - [Transaction.mk 0 5 ['x'] 1 3].length)).map zeroUninit.row,
               username := ['A'] }) :=
  ⟨((load_short_file defaultFormat zeroUninit id (FinanceManager.new []) ['A'] 2
      (by decide) (by decide)).1 "0 5 1 3 x\n".toList).1,
   ((load_short_file defaultFormat zeroUninit id (FinanceManager.new []) ['A'] 2
      (by decide) (by decide)).1 "0 5 1 3 x\n".toList).2.2,
   (load_short_file defaultFormat zeroUninit id (FinanceManager.new []) ['A'] 2
      (by decide) (by decide)).2 [Transaction.mk 0 5 ['x'] 1 3] (by decide) (by decide)
      (by decide)
      (by
        intro t ht
        simp only [List.mem_singleton] at ht
        subst ht
        exact readsBack_of_token _ _ (by decide!) (by decide!))⟩

/-- C7: after a successful load of a well-formed file (name line `n`, count
line, one line per transaction), the display name is `n` and the transactions
are exactly those of the file, in file order, whatever the ledger held before;
for every file content the result does not depend on the prior state. -/
theorem load_replaces_state (F : AmountFormat) (u : Uninit) (r : ℚ → ℚ)
    (prior : FinanceManager) (n : List Char) (rows : List Transaction)
    (hname : '\n' ∉ n) (hdesc : ∀ t ∈ rows, '\n' ∉ t.description)
    (hrange : ∀ t ∈ rows, t.InRange) (hsize : rows.length < 2 ^ 64)
    (hamount : ∀ t ∈ rows, ReadsBack F t.amount (r t.amount)) :
    prior.loadFromFile F u
        (some (FinanceManager.fileText F { transactions := rows, username := n })) =
      (true, { transactions := rows.map (fun t => { t with amount := r t.amount }),
               username := n }) ∧
    (∀ (other : FinanceManager) (content : List Char),
      other.loadFromFile F u (some content) = prior.loadFromFile F u (some content)) := by
  constructor
  · exact load_fileText F u r { transactions := rows, username := n } prior hname hdesc hrange
      hsize hamount
  · intro other content
    unfold FinanceManager.loadFromFile IStream.getline
    simp [IStream.ofContent, IStream.good]

/-- Witness for C7: a ledger holding a transaction loads the example file and
ends as the example ledger. -/
theorem load_replaces_state_witness :
    (FinanceManager.mk [⟨1, 7, ['o', 'l', 'd'], 7, 1⟩] ['B', 'o', 'b']).loadFromFile
        defaultFormat zeroUninit (some (FinanceManager.fileText defaultFormat exampleLedger)) =
      (true, exampleLedger) := by
  have h := (load_replaces_state defaultFormat zeroUninit id
    (FinanceManager.mk [⟨1, 7, ['o', 'l', 'd'], 7, 1⟩] ['B', 'o', 'b'])
    exampleLedger.username exampleLedger.transactions
    (by decide) (by decide)
    (by decide)
    (by decide)
    (by
      intro t ht
      simp only [exampleLedger, exampleTransactions, List.mem_cons, List.mem_singleton,
        List.not_mem_nil, or_false] at ht
      rcases ht with rfl | rfl | rfl
      · exact readsBack_of_token _ _ (by decide!) (by decide!)
      · exact readsBack_of_token _ _ (by decide!) (by decide!)
      · exact readsBack_of_token _ _ (by decide!) (by decide!))).1
  have hm : (FinanceManager.mk exampleLedger.transactions exampleLedger.username) =
      exampleLedger := rfl
  rw [hm] at h
  rw [h]
  simp [exampleLedger]

/-- C10: when the file cannot be opened, `loadFromFile` returns false and
leaves the transactions and the display name as they were. -/
theorem load_unopened_file (F : AmountFormat) (u : Uninit) (m : FinanceManager) :
    (m.loadFromFile F u none).1 = false ∧
    (m.loadFromFile F u none).2.transactions = m.transactions ∧
    (m.loadFromFile F u none).2.username = m.username :=
  ⟨rfl, rfl, rfl⟩

end Finance
